import Mathlib

/-!
Verification of the partridge calendar/feed engine (readers.py).

The Python source in `partridge/readers.py` is shallowly embedded below:
dates are represented by their proleptic-Gregorian ordinals (`Nat`, as
produced by `datetime.date.toordinal`), service identifiers by `String`,
python dicts by a `keys` finset together with a total `val` function (the
total function models `defaultdict` access, which never raises).
-/

namespace Partridge

/-- A row of `calendar.txt` after `vparse_date`: `start_date`/`end_date` are
date ordinals, `dow i` is the integer value of the weekday flag column
(monday = 0 .. sunday = 6, matching `DAY_NAMES`). -/
structure CalRow where
  service_id : String
  start_date : Nat
  end_date : Nat
  dow : Fin 7 → Nat

/-- A row of `calendar_dates.txt` after `vparse_date`: `date` is a date
ordinal, `exception_type` is the raw string column ("1" adds, "2" removes). -/
structure CalDateRow where
  service_id : String
  date : Nat
  exception_type : String
deriving DecidableEq

/-- The tables of a feed that `_service_ids_by_date` and
`_trip_counts_by_date` consult: the `service_id` column of `trips.txt`
(one entry per trip row), and the `calendar.txt` / `calendar_dates.txt`
rows. -/
structure FeedCal where
  trips : List String
  calendar : List CalRow
  calendar_dates : List CalDateRow

/-- `datetime.date.weekday()` on an ordinal: ordinal 1 (0001-01-01) is a
Monday, so the weekday index (Monday = 0) is `(d - 1) % 7`. -/
def weekday (d : Nat) : Fin 7 :=
  ⟨(d - 1) % 7, Nat.mod_lt _ (by norm_num)⟩

/-- A python dict with key type `κ`: the set of present keys plus a total
value function (a `defaultdict`'s lookup; `val k` is meaningful for
`k ∈ keys`, and models the default value elsewhere). -/
structure FMap (κ α : Type) where
  keys : Finset κ
  val : κ → α

/-- `set(feed.trips.service_id)`. -/
def tripServiceIds (f : FeedCal) : Finset String :=
  f.trips.toFinset

/-- `calendar[calendar.service_id.isin(service_ids)]`: the calendar rows
whose service is referenced by some trip. -/
def calendarFiltered (f : FeedCal) : List CalRow :=
  f.calendar.filter (fun r => r.service_id ∈ tripServiceIds f)

/-- `caldates[caldates.service_id.isin(service_ids)]`. -/
def caldatesFiltered (f : FeedCal) : List CalDateRow :=
  f.calendar_dates.filter (fun r => r.service_id ∈ tripServiceIds f)

/-- The `(date, service_id)` insertions performed by the calendar loop:
for each retained calendar row, for each ordinal in
`range(start, end + 1)`, the pair is produced when the weekday flag of
that date is set (`int(dow[date.weekday()])` is nonzero). -/
def calPairs (f : FeedCal) : List (Nat × String) :=
  (calendarFiltered f).flatMap (fun r =>
    (List.range' r.start_date (r.end_date + 1 - r.start_date)).filterMap (fun d =>
      if r.dow (weekday d) ≠ 0 then some (d, r.service_id) else none))

/-- The `(date, service_id)` insertions performed by the
`exception_type == "1"` loop. -/
def cdaddPairs (f : FeedCal) : List (Nat × String) :=
  ((caldatesFiltered f).filter (fun r => r.exception_type = "1")).map
    (fun r => (r.date, r.service_id))

/-- The `(date, service_id)` pairs collected by the
`exception_type == "2"` loop. -/
def cdremPairs (f : FeedCal) : List (Nat × String) :=
  ((caldatesFiltered f).filter (fun r => r.exception_type = "2")).map
    (fun r => (r.date, r.service_id))

/-- `results[date].add(service_id)` on a `defaultdict(set)`: the date
becomes a present key and the id is inserted into its set. -/
def insertSid (m : FMap Nat (Finset String)) (p : Nat × String) :
    FMap Nat (Finset String) :=
  ⟨insert p.1 m.keys, fun d => if d = p.1 then insert p.2 (m.val d) else m.val d⟩

/-- `defaultdict(set)` with nothing inserted yet. -/
def emptyDM : FMap Nat (Finset String) :=
  ⟨∅, fun _ => ∅⟩

/-- The accumulator after the calendar loop. -/
def calendarResults (f : FeedCal) : FMap Nat (Finset String) :=
  (calPairs f).foldl insertSid emptyDM

/-- The accumulator after the calendar loop and the addition loop. -/
def resultsAfterAdds (f : FeedCal) : FMap Nat (Finset String) :=
  (cdaddPairs f).foldl insertSid (calendarResults f)

/-- The `removals` dict after the collection loop. -/
def removalsDM (f : FeedCal) : FMap Nat (Finset String) :=
  (cdremPairs f).foldl insertSid emptyDM

/-- The removal-processing loop: for every date of `removals`, the pending
ids are discarded from that date's set, and the date is dropped from the
dict when its set has become empty (accessing `results[date]` on the
defaultdict never raises). Dates not mentioned in `removals` are
untouched. -/
def applyRemovals (res rem : FMap Nat (Finset String)) : FMap Nat (Finset String) :=
  ⟨(res.keys \ rem.keys) ∪ rem.keys.filter (fun d => (res.val d \ rem.val d).Nonempty),
   fun d => if d ∈ rem.keys then res.val d \ rem.val d else res.val d⟩

/-- The final `results` dict of `_service_ids_by_date`, before the
`assert`. -/
def serviceIdsByDateRaw (f : FeedCal) : FMap Nat (Finset String) :=
  applyRemovals (resultsAfterAdds f) (removalsDM f)

/-- `_service_ids_by_date`: `none` models the `assert results` failure
("No service found in feed."); the frozenset comprehension is the
identity here because the accumulated values are already finsets. -/
def service_ids_by_date (f : FeedCal) : Option (FMap Nat (Finset String)) :=
  if (serviceIdsByDateRaw f).keys = ∅ then none else some (serviceIdsByDateRaw f)

/-! ### Accumulator lemmas -/

theorem val_insertSid (init : FMap Nat (Finset String)) (p : Nat × String) (d : Nat) :
    (insertSid init p).val d =
      if d = p.1 then insert p.2 (init.val d) else init.val d :=
  rfl

theorem keys_insertSid (init : FMap Nat (Finset String)) (p : Nat × String) :
    (insertSid init p).keys = insert p.1 init.keys :=
  rfl

theorem mem_val_foldl_insertSid (l : List (Nat × String))
    (init : FMap Nat (Finset String)) (d : Nat) (s : String) :
    s ∈ (l.foldl insertSid init).val d ↔ (d, s) ∈ l ∨ s ∈ init.val d := by
  induction l generalizing init with
  | nil => simp
  | cons p l ih =>
    simp only [List.foldl_cons, ih, List.mem_cons]
    by_cases h : d = p.1
    · subst h
      rw [val_insertSid, if_pos rfl]
      have h2 : (p.1, s) = p ↔ s = p.2 := by
        constructor
        · intro he
          exact (congrArg Prod.snd he)
        · rintro rfl
          rfl
      simp only [Finset.mem_insert, h2]
      tauto
    · rw [val_insertSid, if_neg h]
      have hne : ((d, s) = p) ↔ False :=
        ⟨fun he => h (congrArg Prod.fst he), False.elim⟩
      simp only [hne, false_or]

theorem mem_keys_foldl_insertSid (l : List (Nat × String))
    (init : FMap Nat (Finset String)) (d : Nat) :
    d ∈ (l.foldl insertSid init).keys ↔ (∃ s, (d, s) ∈ l) ∨ d ∈ init.keys := by
  induction l generalizing init with
  | nil => simp
  | cons p l ih =>
    simp only [List.foldl_cons, ih, List.mem_cons]
    by_cases h : d = p.1
    · subst h
      have h1 : p.1 ∈ (insertSid init p).keys := by
        rw [keys_insertSid]
        exact Finset.mem_insert_self _ _
      have h2 : (p.1, p.2) = p := rfl
      constructor
      · intro _
        exact Or.inl ⟨p.2, Or.inl h2⟩
      · intro _
        exact Or.inr h1
    · rw [keys_insertSid]
      have hne : ∀ s : String, ((d, s) = p) ↔ False := fun s =>
        ⟨fun he => h (congrArg Prod.fst he), False.elim⟩
      simp only [Finset.mem_insert, h, hne, false_or]

/-- The defaultdict invariant of the accumulating dicts: a date is a
present key exactly when its set is non-empty. -/
def GoodMap (m : FMap Nat (Finset String)) : Prop :=
  ∀ d, d ∈ m.keys ↔ (m.val d).Nonempty

theorem goodMap_empty : GoodMap emptyDM := by
  intro d
  simp [emptyDM]

theorem goodMap_foldl (l : List (Nat × String)) (init : FMap Nat (Finset String))
    (h : GoodMap init) : GoodMap (l.foldl insertSid init) := by
  intro d
  rw [mem_keys_foldl_insertSid]
  constructor
  · rintro (⟨s, hs⟩ | hk)
    · exact ⟨s, (mem_val_foldl_insertSid l init d s).2 (Or.inl hs)⟩
    · obtain ⟨s, hs⟩ := (h d).1 hk
      exact ⟨s, (mem_val_foldl_insertSid l init d s).2 (Or.inr hs)⟩
  · rintro ⟨s, hs⟩
    rcases (mem_val_foldl_insertSid l init d s).1 hs with h1 | h2
    · exact Or.inl ⟨s, h1⟩
    · exact Or.inr ((h d).2 ⟨s, h2⟩)

theorem goodMap_applyRemovals (res rem : FMap Nat (Finset String))
    (h : GoodMap res) : GoodMap (applyRemovals res rem) := by
  intro d
  simp only [applyRemovals, Finset.mem_union, Finset.mem_sdiff, Finset.mem_filter]
  by_cases hd : d ∈ rem.keys
  · simp [hd]
  · simp [hd, h d]

theorem goodMap_raw (f : FeedCal) : GoodMap (serviceIdsByDateRaw f) :=
  goodMap_applyRemovals _ _ (goodMap_foldl _ _ (goodMap_foldl _ _ goodMap_empty))

theorem sibd_eq_some_iff (f : FeedCal) (m : FMap Nat (Finset String)) :
    service_ids_by_date f = some m ↔
      (serviceIdsByDateRaw f).keys ≠ ∅ ∧ m = serviceIdsByDateRaw f := by
  unfold service_ids_by_date
  split
  · simp_all
  · simp_all [eq_comm]

/-! ### C1: contribution of the calendar table -/

theorem mem_calPairs (f : FeedCal) (d : Nat) (s : String) :
    (d, s) ∈ calPairs f ↔
      ∃ r ∈ f.calendar, r.service_id ∈ tripServiceIds f ∧ r.service_id = s ∧
        r.start_date ≤ d ∧ d ≤ r.end_date ∧ r.dow (weekday d) ≠ 0 := by
  simp only [calPairs, calendarFiltered, List.mem_flatMap, List.mem_filter,
    List.mem_filterMap, decide_eq_true_eq]
  constructor
  · rintro ⟨r, ⟨hr, hsvc⟩, x, hx, hif⟩
    by_cases hflag : r.dow (weekday x) ≠ 0
    · rw [if_pos hflag] at hif
      obtain ⟨rfl, rfl⟩ := Prod.mk.injEq .. ▸ Option.some.injEq _ _ ▸ hif
      have hrange := List.mem_range'.1 hx
      obtain ⟨i, hi, rfl⟩ := hrange
      exact ⟨r, hr, hsvc, rfl, Nat.le_add_right _ _, by omega, hflag⟩
    · rw [if_neg hflag] at hif
      exact absurd hif (by simp)
  · rintro ⟨r, hr, hsvc, rfl, hsd, hed, hflag⟩
    refine ⟨r, ⟨hr, hsvc⟩, d, ?_, ?_⟩
    · exact List.mem_range'.2 ⟨d - r.start_date, by omega, by omega⟩
    · rw [if_pos hflag]

/-- C1: in `_service_ids_by_date`, the weekly-pattern (calendar) table
contributes exactly this: a service id `s` is in the accumulated set of
date `d` after the calendar loop iff some `calendar.txt` row carries `s`,
`s` is referenced by a trip, `d` lies in the row's inclusive
`[start_date, end_date]` range, and the row's flag for `d`'s weekday
(monday = 0 .. sunday = 6) is set; calendar rows referenced by no trip
contribute nothing. -/
theorem c1_calendar_contribution (f : FeedCal) (d : Nat) (s : String) :
    s ∈ (calendarResults f).val d ↔
      ∃ r ∈ f.calendar, r.service_id ∈ tripServiceIds f ∧ r.service_id = s ∧
        r.start_date ≤ d ∧ d ≤ r.end_date ∧ r.dow (weekday d) ≠ 0 := by
  rw [calendarResults, mem_val_foldl_insertSid, mem_calPairs]
  simp [emptyDM]

theorem FMap.ext {κ α : Type} {a b : FMap κ α}
    (h1 : a.keys = b.keys) (h2 : a.val = b.val) : a = b := by
  cases a
  cases b
  simp_all

theorem sibd_some_of_ne (f : FeedCal) (h : (serviceIdsByDateRaw f).keys ≠ ∅) :
    service_ids_by_date f = some (serviceIdsByDateRaw f) := by
  unfold service_ids_by_date
  rw [if_neg h]

/-! ### C3: every value of the returned mapping is non-empty -/

/-- C3: whenever `_service_ids_by_date` succeeds, every date present in
the returned mapping carries a non-empty set of service ids, and a date
absent from the mapping has the empty set (it was deleted, not mapped to
`∅`). -/
theorem c3_values_nonempty (f : FeedCal) (m : FMap Nat (Finset String))
    (h : service_ids_by_date f = some m) :
    (∀ d ∈ m.keys, (m.val d).Nonempty) ∧ ∀ d, d ∉ m.keys → m.val d = ∅ := by
  obtain ⟨-, rfl⟩ := (sibd_eq_some_iff f m).1 h
  have hg := goodMap_raw f
  refine ⟨fun d hd => (hg d).1 hd, fun d hd => ?_⟩
  exact Finset.not_nonempty_iff_eq_empty.1 (fun hne => hd ((hg d).2 hne))

/-- A feed with one weekly pattern covering Monday 8 and Tuesday 9. -/
def feed0 : FeedCal :=
  ⟨["WD"], [⟨"WD", 8, 9, fun i => if i.val ≤ 4 then 1 else 0⟩], []⟩

theorem c3_values_nonempty_witness :
    ((serviceIdsByDateRaw feed0).val 8).Nonempty :=
  (c3_values_nonempty feed0 (serviceIdsByDateRaw feed0)
    (sibd_some_of_ne feed0 (by decide))).1 8 (by decide)

/-! ### C9: the "no service found" assertion -/

theorem goodMap_removals (f : FeedCal) : GoodMap (removalsDM f) :=
  goodMap_foldl _ _ goodMap_empty

theorem raw_val_eq (f : FeedCal) (d : Nat) :
    (serviceIdsByDateRaw f).val d =
      if d ∈ (removalsDM f).keys
      then (resultsAfterAdds f).val d \ (removalsDM f).val d
      else (resultsAfterAdds f).val d :=
  rfl

/-- C9: `_service_ids_by_date` fails exactly when every date's set is
empty once the pending removals are subtracted from the accumulated
additions; on success the returned mapping is never empty. -/
theorem c9_assert_iff_empty (f : FeedCal) :
    (service_ids_by_date f = none ↔
      ∀ d, (resultsAfterAdds f).val d \ (removalsDM f).val d = ∅) ∧
    ∀ m, service_ids_by_date f = some m → m.keys.Nonempty := by
  constructor
  · have hnone : service_ids_by_date f = none ↔ (serviceIdsByDateRaw f).keys = ∅ := by
      unfold service_ids_by_date
      split
      · simp_all
      · simp_all
    rw [hnone]
    have hg := goodMap_raw f
    have hr := goodMap_removals f
    constructor
    · intro hk d
      have hd : d ∉ (serviceIdsByDateRaw f).keys := by
        rw [hk]
        exact Finset.not_mem_empty d
      have hv : (serviceIdsByDateRaw f).val d = ∅ :=
        Finset.not_nonempty_iff_eq_empty.1 (fun hne => hd ((hg d).2 hne))
      rw [raw_val_eq] at hv
      by_cases hdm : d ∈ (removalsDM f).keys
      · rwa [if_pos hdm] at hv
      · rw [if_neg hdm] at hv
        rw [hv]
        exact Finset.empty_sdiff _
    · intro hall
      rw [Finset.eq_empty_iff_forall_not_mem]
      intro d hd
      have hne := (hg d).1 hd
      rw [raw_val_eq] at hne
      by_cases hdm : d ∈ (removalsDM f).keys
      · rw [if_pos hdm, hall d] at hne
        exact Finset.not_nonempty_empty hne
      · rw [if_neg hdm] at hne
        have hrem : (removalsDM f).val d = ∅ :=
          Finset.not_nonempty_iff_eq_empty.1 (fun h2 => hdm ((hr d).2 h2))
        have h3 : (resultsAfterAdds f).val d = ∅ := by
          have h4 := hall d
          rwa [hrem, Finset.sdiff_empty] at h4
        rw [h3] at hne
        exact Finset.not_nonempty_empty hne
  · intro m hm
    obtain ⟨hk, rfl⟩ := (sibd_eq_some_iff f m).1 hm
    exact Finset.nonempty_iff_ne_empty.2 hk

/-- A feed whose only calendar service is referenced by no trip: calendar
resolution finds no service at all. -/
def feedNone : FeedCal :=
  ⟨["X"], [], []⟩

theorem c9_assert_iff_empty_witness :
    service_ids_by_date feedNone = none ∧
      (serviceIdsByDateRaw feed0).keys.Nonempty :=
  ⟨(c9_assert_iff_empty feedNone).1.2 (fun _ => Finset.empty_sdiff _),
   (c9_assert_iff_empty feed0).2 (serviceIdsByDateRaw feed0)
     (sibd_some_of_ne feed0 (by decide))⟩

/-! ### C2: removals are applied after all additions -/

theorem mem_cdaddPairs (f : FeedCal) (d : Nat) (s : String) :
    (d, s) ∈ cdaddPairs f ↔
      ∃ r ∈ f.calendar_dates, r.service_id ∈ tripServiceIds f ∧
        r.exception_type = "1" ∧ r.date = d ∧ r.service_id = s := by
  simp only [cdaddPairs, caldatesFiltered, List.mem_map, List.mem_filter,
    decide_eq_true_eq, Prod.mk.injEq]
  constructor
  · rintro ⟨r, ⟨⟨hr, htrip⟩, htype⟩, hd, hs⟩
    exact ⟨r, hr, htrip, htype, hd, hs⟩
  · rintro ⟨r, hr, htrip, htype, hd, hs⟩
    exact ⟨r, ⟨⟨hr, htrip⟩, htype⟩, hd, hs⟩

theorem mem_cdremPairs (f : FeedCal) (d : Nat) (s : String) :
    (d, s) ∈ cdremPairs f ↔
      ∃ r ∈ f.calendar_dates, r.service_id ∈ tripServiceIds f ∧
        r.exception_type = "2" ∧ r.date = d ∧ r.service_id = s := by
  simp only [cdremPairs, caldatesFiltered, List.mem_map, List.mem_filter,
    decide_eq_true_eq, Prod.mk.injEq]
  constructor
  · rintro ⟨r, ⟨⟨hr, htrip⟩, htype⟩, hd, hs⟩
    exact ⟨r, hr, htrip, htype, hd, hs⟩
  · rintro ⟨r, hr, htrip, htype, hd, hs⟩
    exact ⟨r, ⟨⟨hr, htrip⟩, htype⟩, hd, hs⟩

theorem foldl_insertSid_perm (l₁ l₂ : List (Nat × String))
    (init : FMap Nat (Finset String)) (h : l₁.Perm l₂) :
    l₁.foldl insertSid init = l₂.foldl insertSid init := by
  refine FMap.ext ?_ ?_
  · ext d
    rw [mem_keys_foldl_insertSid, mem_keys_foldl_insertSid]
    constructor
    · rintro (⟨s, hs⟩ | hk)
      · exact Or.inl ⟨s, h.mem_iff.1 hs⟩
      · exact Or.inr hk
    · rintro (⟨s, hs⟩ | hk)
      · exact Or.inl ⟨s, h.mem_iff.2 hs⟩
      · exact Or.inr hk
  · funext d
    ext s
    rw [mem_val_foldl_insertSid, mem_val_foldl_insertSid, h.mem_iff]

theorem mem_resultsAfterAdds_trips (f : FeedCal) (d : Nat) (s : String)
    (h : s ∈ (resultsAfterAdds f).val d) : s ∈ tripServiceIds f := by
  rw [resultsAfterAdds, mem_val_foldl_insertSid] at h
  rcases h with h | h
  · obtain ⟨r, hr, htrip, -, -, hs⟩ := (mem_cdaddPairs f d s).1 h
    rw [← hs]
    exact htrip
  · rw [calendarResults, mem_val_foldl_insertSid] at h
    rcases h with h | h
    · obtain ⟨r, hr, htrip, hs, -⟩ := (mem_calPairs f d s).1 h
      rw [← hs]
      exact htrip
    · simp [emptyDM] at h

/-- C2: the removal loop of `_service_ids_by_date` runs only after every
addition has been accumulated.  Consequently (a) permuting the rows of the
exception table leaves the result unchanged, and (b) when one
`(date, service_id)` pair occurs both as an addition and as a removal,
the id is absent from that date's final set: removal wins. -/
theorem c2_removal_semantics (f : FeedCal) :
    (∀ cd₂, f.calendar_dates.Perm cd₂ →
      service_ids_by_date f = service_ids_by_date ⟨f.trips, f.calendar, cd₂⟩) ∧
    (∀ m d s, service_ids_by_date f = some m →
      (∃ r ∈ f.calendar_dates, r.date = d ∧ r.service_id = s ∧ r.exception_type = "1") →
      (∃ r ∈ f.calendar_dates, r.date = d ∧ r.service_id = s ∧ r.exception_type = "2") →
      s ∉ m.val d) := by
  constructor
  · intro cd₂ hperm
    have h1 : (caldatesFiltered f).Perm
        (caldatesFiltered ⟨f.trips, f.calendar, cd₂⟩) := hperm.filter _
    have h2 : (cdaddPairs f).Perm (cdaddPairs ⟨f.trips, f.calendar, cd₂⟩) :=
      (h1.filter _).map _
    have h3 : (cdremPairs f).Perm (cdremPairs ⟨f.trips, f.calendar, cd₂⟩) :=
      (h1.filter _).map _
    have hcal : calendarResults f = calendarResults ⟨f.trips, f.calendar, cd₂⟩ := rfl
    have hadd : resultsAfterAdds f = resultsAfterAdds ⟨f.trips, f.calendar, cd₂⟩ := by
      rw [resultsAfterAdds, resultsAfterAdds, ← hcal]
      exact foldl_insertSid_perm _ _ _ h2
    have hrem : removalsDM f = removalsDM ⟨f.trips, f.calendar, cd₂⟩ :=
      foldl_insertSid_perm _ _ _ h3
    unfold service_ids_by_date serviceIdsByDateRaw
    rw [hadd, hrem]
  · intro m d s hm haddrow hremrow
    obtain ⟨-, rfl⟩ := (sibd_eq_some_iff f m).1 hm
    obtain ⟨rr, hrr, hrrd, hrrs, hrrt⟩ := hremrow
    by_cases hs : s ∈ tripServiceIds f
    · have hpair : (d, s) ∈ cdremPairs f := by
        rw [mem_cdremPairs]
        refine ⟨rr, hrr, ?_, hrrt, hrrd, hrrs⟩
        rw [hrrs]
        exact hs
      have hkey : d ∈ (removalsDM f).keys := by
        rw [removalsDM, mem_keys_foldl_insertSid]
        exact Or.inl ⟨s, hpair⟩
      have hval : s ∈ (removalsDM f).val d := by
        rw [removalsDM, mem_val_foldl_insertSid]
        exact Or.inl hpair
      rw [raw_val_eq, if_pos hkey]
      intro hmem
      exact (Finset.mem_sdiff.1 hmem).2 hval
    · intro hmem
      apply hs
      rw [raw_val_eq] at hmem
      by_cases hdm : d ∈ (removalsDM f).keys
      · rw [if_pos hdm] at hmem
        exact mem_resultsAfterAdds_trips f d s (Finset.mem_sdiff.1 hmem).1
      · rw [if_neg hdm] at hmem
        exact mem_resultsAfterAdds_trips f d s hmem

/-- The feed of the spec's worked example, with small ordinals: weekly
pattern "WD" on weekdays 8..12 (Monday..Friday), an exception adding
"HOL" on date 8 and one removing "WD" on date 8. -/
def feedC2 : FeedCal :=
  ⟨["WD", "WD", "WD", "HOL"],
   [⟨"WD", 8, 12, fun i => if i.val ≤ 4 then 1 else 0⟩],
   [⟨"HOL", 8, "1"⟩, ⟨"WD", 8, "1"⟩, ⟨"WD", 8, "2"⟩]⟩

/-- `feedC2` with the first two exception rows in the opposite order. -/
def feedC2sw : FeedCal :=
  ⟨["WD", "WD", "WD", "HOL"],
   [⟨"WD", 8, 12, fun i => if i.val ≤ 4 then 1 else 0⟩],
   [⟨"WD", 8, "1"⟩, ⟨"HOL", 8, "1"⟩, ⟨"WD", 8, "2"⟩]⟩

theorem c2_removal_semantics_witness :
    service_ids_by_date feedC2 = service_ids_by_date feedC2sw ∧
      "WD" ∉ (serviceIdsByDateRaw feedC2).val 8 :=
  ⟨(c2_removal_semantics feedC2).1 _ (List.Perm.swap _ _ _),
   (c2_removal_semantics feedC2).2 (serviceIdsByDateRaw feedC2) 8 "WD"
     (sibd_some_of_ne feedC2 (by decide))
     ⟨⟨"WD", 8, "1"⟩, by simp [feedC2], rfl, rfl, rfl⟩
     ⟨⟨"WD", 8, "2"⟩, by simp [feedC2], rfl, rfl, rfl⟩⟩

/-! ### C6: `_dates_by_service_ids` inverts `_service_ids_by_date` -/

/-- The grouping loop of `_dates_by_service_ids`:
`results[service_ids].add(date)` over the items of the date map. -/
def datesByServiceRaw (m : FMap Nat (Finset String)) :
    FMap (Finset String) (Finset Nat) :=
  ⟨m.keys.image m.val, fun S => m.keys.filter (fun d => m.val d = S)⟩

/-- `_dates_by_service_ids`. -/
def dates_by_service_ids (f : FeedCal) :
    Option (FMap (Finset String) (Finset Nat)) :=
  (service_ids_by_date f).map datesByServiceRaw

/-- `trips[trips.service_id.isin(service_ids)].shape[0]`. -/
def countTrips (f : FeedCal) (S : Finset String) : Nat :=
  (f.trips.filter (fun sid => sid ∈ S)).length

/-- The accumulation loop of `_trip_counts_by_date`: each bucket's trip
count is computed once and `+=`-ed into every date of the bucket. -/
def tripCountsRaw (f : FeedCal) (b : FMap (Finset String) (Finset Nat)) :
    FMap Nat Nat :=
  ⟨b.keys.biUnion b.val,
   fun d => ∑ S ∈ b.keys.filter (fun S => d ∈ b.val S), countTrips f S⟩

/-- `_trip_counts_by_date`. -/
def trip_counts_by_date (f : FeedCal) : Option (FMap Nat Nat) :=
  (dates_by_service_ids f).map (tripCountsRaw f)

theorem biUnion_datesByServiceRaw (m : FMap Nat (Finset String)) :
    (datesByServiceRaw m).keys.biUnion (datesByServiceRaw m).val = m.keys := by
  ext d
  simp only [datesByServiceRaw, Finset.mem_biUnion, Finset.mem_image, Finset.mem_filter]
  constructor
  · rintro ⟨S, ⟨d', hd', rfl⟩, hd, hval⟩
    exact hd
  · intro hd
    exact ⟨m.val d, ⟨d, hd, rfl⟩, hd, rfl⟩

theorem dbs_eq (f : FeedCal) (h : (serviceIdsByDateRaw f).keys ≠ ∅) :
    dates_by_service_ids f = some (datesByServiceRaw (serviceIdsByDateRaw f)) := by
  rw [dates_by_service_ids, sibd_some_of_ne f h]
  rfl

theorem tcbd_eq (f : FeedCal) (h : (serviceIdsByDateRaw f).keys ≠ ∅) :
    trip_counts_by_date f =
      some (tripCountsRaw f (datesByServiceRaw (serviceIdsByDateRaw f))) := by
  rw [trip_counts_by_date, dbs_eq f h]
  rfl

/-- C6: `_dates_by_service_ids` is the exact inverse of
`_service_ids_by_date`: its buckets are non-empty, pairwise disjoint,
cover exactly the dates of the date map, and every date of a bucket maps
back to that bucket's service set, so re-expanding the buckets reproduces
the date map exactly. -/
theorem c6_inverse (f : FeedCal) (m : FMap Nat (Finset String))
    (b : FMap (Finset String) (Finset Nat))
    (hm : service_ids_by_date f = some m)
    (hb : dates_by_service_ids f = some b) :
    (∀ S ∈ b.keys, (b.val S).Nonempty) ∧
    (∀ S₁ ∈ b.keys, ∀ S₂ ∈ b.keys, S₁ ≠ S₂ → ∀ d ∈ b.val S₁, d ∉ b.val S₂) ∧
    (b.keys.biUnion b.val = m.keys) ∧
    (∀ S ∈ b.keys, ∀ d ∈ b.val S, m.val d = S) ∧
    (∀ d ∈ m.keys, m.val d ∈ b.keys ∧ d ∈ b.val (m.val d)) := by
  have hb' : b = datesByServiceRaw m := by
    rw [dates_by_service_ids, hm] at hb
    exact (Option.some.inj hb).symm
  subst hb'
  refine ⟨?_, ?_, biUnion_datesByServiceRaw m, ?_, ?_⟩
  · rintro S hS
    obtain ⟨d, hd, rfl⟩ := Finset.mem_image.1 hS
    exact ⟨d, Finset.mem_filter.2 ⟨hd, rfl⟩⟩
  · rintro S₁ h₁ S₂ h₂ hne d hd₁ hd₂
    have e₁ := (Finset.mem_filter.1 hd₁).2
    have e₂ := (Finset.mem_filter.1 hd₂).2
    exact hne (e₁ ▸ e₂)
  · intro S hS d hd
    exact (Finset.mem_filter.1 hd).2
  · intro d hd
    exact ⟨Finset.mem_image.2 ⟨d, hd, rfl⟩, Finset.mem_filter.2 ⟨hd, rfl⟩⟩

theorem c6_inverse_witness :
    (datesByServiceRaw (serviceIdsByDateRaw feed0)).keys.biUnion
        (datesByServiceRaw (serviceIdsByDateRaw feed0)).val =
      (serviceIdsByDateRaw feed0).keys :=
  (c6_inverse feed0 _ _ (sibd_some_of_ne feed0 (by decide))
    (dbs_eq feed0 (by decide))).2.2.1

/-! ### C10: trip counts are strictly positive -/

theorem mem_raw_trips (f : FeedCal) (d : Nat) (s : String)
    (h : s ∈ (serviceIdsByDateRaw f).val d) : s ∈ tripServiceIds f := by
  rw [raw_val_eq] at h
  by_cases hdm : d ∈ (removalsDM f).keys
  · rw [if_pos hdm] at h
    exact mem_resultsAfterAdds_trips f d s (Finset.mem_sdiff.1 h).1
  · rw [if_neg hdm] at h
    exact mem_resultsAfterAdds_trips f d s h

theorem countTrips_pos (f : FeedCal) (S : Finset String)
    (h : ∃ s ∈ S, s ∈ tripServiceIds f) : 0 < countTrips f S := by
  obtain ⟨s, hsS, hst⟩ := h
  have hmem : s ∈ f.trips.filter (fun sid => sid ∈ S) := by
    rw [List.mem_filter]
    exact ⟨List.mem_toFinset.1 hst, by simpa using hsS⟩
  rw [countTrips]
  exact List.length_pos.2 (List.ne_nil_of_mem hmem)

/-- C10: whenever the pipeline succeeds, every value of
`_trip_counts_by_date` is at least 1 (each date's service set matches at
least one trip), and its key set is exactly the key set of
`_service_ids_by_date`. -/
theorem c10_counts_positive (f : FeedCal) (c : FMap Nat Nat)
    (hc : trip_counts_by_date f = some c) :
    (∀ d ∈ c.keys, 0 < c.val d) ∧
    ∀ m, service_ids_by_date f = some m → c.keys = m.keys := by
  cases hsib : service_ids_by_date f with
  | none =>
    rw [trip_counts_by_date, dates_by_service_ids, hsib] at hc
    exact absurd hc (by simp)
  | some m₀ =>
    have hm₀ : m₀ = serviceIdsByDateRaw f := ((sibd_eq_some_iff f m₀).1 hsib).2
    rw [trip_counts_by_date, dates_by_service_ids, hsib] at hc
    simp only [Option.map_some'] at hc
    have hc' : c = tripCountsRaw f (datesByServiceRaw m₀) := (Option.some.inj hc).symm
    subst hc'
    have hkeys : (tripCountsRaw f (datesByServiceRaw m₀)).keys = m₀.keys :=
      biUnion_datesByServiceRaw m₀
    constructor
    · intro d hd
      rw [hkeys] at hd
      have hS₀ : m₀.val d ∈ (datesByServiceRaw m₀).keys :=
        Finset.mem_image.2 ⟨d, hd, rfl⟩
      have hdS₀ : d ∈ (datesByServiceRaw m₀).val (m₀.val d) :=
        Finset.mem_filter.2 ⟨hd, rfl⟩
      have hmemf : m₀.val d ∈ (datesByServiceRaw m₀).keys.filter
          (fun S => d ∈ (datesByServiceRaw m₀).val S) :=
        Finset.mem_filter.2 ⟨hS₀, hdS₀⟩
      have hpos : 0 < countTrips f (m₀.val d) := by
        apply countTrips_pos
        obtain ⟨s, hs⟩ := (goodMap_raw f d).1 (hm₀ ▸ hd)
        refine ⟨s, ?_, mem_raw_trips f d s hs⟩
        rw [hm₀]
        exact hs
      have hle := Finset.single_le_sum
        (f := fun S => countTrips f S) (fun i _ => Nat.zero_le _) hmemf
      exact lt_of_lt_of_le hpos hle
    · intro m hm
      have hmm : m = m₀ := (Option.some.inj hm).symm
      rw [hkeys, hmm]

theorem c10_counts_positive_witness :
    0 < (tripCountsRaw feed0
      (datesByServiceRaw (serviceIdsByDateRaw feed0))).val 8 :=
  (c10_counts_positive feed0 _ (tcbd_eq feed0 (by decide))).1 8 (by decide)

/-! ### C4: busiest date -/

/-- `max(items, key=lambda kv: (count, -ordinal))` as a left fold: the
running best is replaced exactly when the candidate compares strictly
greater under the key, i.e. has a larger count, or an equal count and a
smaller (earlier) ordinal. -/
def pickBest (cnt : Nat → Nat) (l : List Nat) (d0 : Nat) : Nat :=
  l.foldl (fun best d =>
    if cnt best < cnt d ∨ (cnt best = cnt d ∧ d < best) then d else best) d0

/-- `a` is at least as good as `b` under the key
`(count descending, ordinal ascending)`. -/
def AtLeast (cnt : Nat → Nat) (a b : Nat) : Prop :=
  cnt b < cnt a ∨ (cnt a = cnt b ∧ a ≤ b)

theorem pickBest_spec (cnt : Nat → Nat) (l : List Nat) (d0 : Nat) :
    pickBest cnt l d0 ∈ d0 :: l ∧ ∀ x ∈ d0 :: l, AtLeast cnt (pickBest cnt l d0) x := by
  induction l generalizing d0 with
  | nil =>
    refine ⟨by simp [pickBest], ?_⟩
    intro x hx
    rcases List.mem_cons.1 hx with rfl | hx
    · exact Or.inr ⟨rfl, le_refl _⟩
    · exact absurd hx (List.not_mem_nil x)
  | cons d l ih =>
    have hstep : pickBest cnt (d :: l) d0 =
        pickBest cnt l (if cnt d0 < cnt d ∨ (cnt d0 = cnt d ∧ d < d0) then d else d0) :=
      rfl
    by_cases hcond : cnt d0 < cnt d ∨ (cnt d0 = cnt d ∧ d < d0)
    · obtain ⟨hmem, hdom⟩ := ih d
      rw [hstep, if_pos hcond]
      constructor
      · rcases List.mem_cons.1 hmem with h | h
        · rw [h]
          exact List.mem_cons_of_mem _ (List.mem_cons_self _ _)
        · exact List.mem_cons_of_mem _ (List.mem_cons_of_mem _ h)
      · intro x hx
        rcases List.mem_cons.1 hx with rfl | hx
        · have h1 := hdom d (List.mem_cons_self _ _)
          have h2 : AtLeast cnt d x := by
            unfold AtLeast
            omega
          unfold AtLeast at *
          omega
        · exact hdom x hx
    · obtain ⟨hmem, hdom⟩ := ih d0
      rw [hstep, if_neg hcond]
      constructor
      · rcases List.mem_cons.1 hmem with h | h
        · rw [h]
          exact List.mem_cons_self _ _
        · exact List.mem_cons_of_mem _ (List.mem_cons_of_mem _ h)
      · intro x hx
        rcases List.mem_cons.1 hx with rfl | hx
        · exact hdom x (List.mem_cons_self _ _)
        · rcases List.mem_cons.1 hx with rfl | hx
          · have h1 := hdom d0 (List.mem_cons_self _ _)
            unfold AtLeast at *
            omega
          · exact hdom x (List.mem_cons_of_mem _ hx)

/-- `_busiest_date`: `max` over the trip-counts dict (here iterated in
sorted key order; the maximum is order-independent because the key
`(count, -ordinal)` is injective on dates), paired with that date's
service set.  `none` models `max`'s error on an empty dict, which the
`assert` in `_service_ids_by_date` makes unreachable. -/
def busiest_date (f : FeedCal) : Option (Nat × Finset String) :=
  (service_ids_by_date f).bind fun m =>
    (trip_counts_by_date f).bind fun c =>
      match c.keys.sort (· ≤ ·) with
      | [] => none
      | d0 :: rest => some (pickBest c.val rest d0, m.val (pickBest c.val rest d0))

theorem tcbd_keys_eq (f : FeedCal) (m : FMap Nat (Finset String)) (c : FMap Nat Nat)
    (hm : service_ids_by_date f = some m) (hc : trip_counts_by_date f = some c) :
    c.keys = m.keys := by
  rw [trip_counts_by_date, dates_by_service_ids, hm] at hc
  simp only [Option.map_some'] at hc
  have hc' : c = tripCountsRaw f (datesByServiceRaw m) := (Option.some.inj hc).symm
  subst hc'
  exact biUnion_datesByServiceRaw m

/-- C4: `_busiest_date` returns a date of the trip-counts mapping whose
count is maximal, the earliest such date in case of ties, paired with
that date's service set. -/
theorem c4_busiest_date (f : FeedCal) (m : FMap Nat (Finset String))
    (c : FMap Nat Nat) (hm : service_ids_by_date f = some m)
    (hc : trip_counts_by_date f = some c) :
    ∃ d, busiest_date f = some (d, m.val d) ∧ d ∈ c.keys ∧
      (∀ x ∈ c.keys, c.val x ≤ c.val d) ∧
      (∀ x ∈ c.keys, c.val x = c.val d → d ≤ x) := by
  have hkeysne : c.keys.Nonempty := by
    rw [tcbd_keys_eq f m c hm hc, ((sibd_eq_some_iff f m).1 hm).2]
    exact Finset.nonempty_iff_ne_empty.2 ((sibd_eq_some_iff f m).1 hm).1
  obtain ⟨de, hde⟩ := hkeysne
  have hmemde : de ∈ c.keys.sort (· ≤ ·) := (Finset.mem_sort _).2 hde
  cases hs : c.keys.sort (· ≤ ·) with
  | nil =>
    rw [hs] at hmemde
    exact absurd hmemde (List.not_mem_nil de)
  | cons d0 rest =>
    obtain ⟨hmem, hdom⟩ := pickBest_spec c.val rest d0
    refine ⟨pickBest c.val rest d0, ?_, ?_, ?_, ?_⟩
    · unfold busiest_date
      rw [hm, hc]
      simp only [Option.some_bind]
      rw [hs]
    · rw [← Finset.mem_sort (· ≤ ·), hs]
      exact hmem
    · intro x hx
      have hx' : x ∈ d0 :: rest := by
        rw [← hs]
        exact (Finset.mem_sort _).2 hx
      have := hdom x hx'
      unfold AtLeast at this
      omega
    · intro x hx he
      have hx' : x ∈ d0 :: rest := by
        rw [← hs]
        exact (Finset.mem_sort _).2 hx
      have := hdom x hx'
      unfold AtLeast at this
      omega

/-- The date map of `feed0`. -/
def m0 : FMap Nat (Finset String) :=
  serviceIdsByDateRaw feed0

/-- The trip-counts map of `feed0`. -/
def tc0 : FMap Nat Nat :=
  tripCountsRaw feed0 (datesByServiceRaw m0)

theorem c4_busiest_date_witness :
    ∃ d, busiest_date feed0 = some (d, m0.val d) ∧ d ∈ tc0.keys ∧
      (∀ x ∈ tc0.keys, tc0.val x ≤ tc0.val d) ∧
      (∀ x ∈ tc0.keys, tc0.val x = tc0.val d → d ≤ x) :=
  c4_busiest_date feed0 m0 tc0 (sibd_some_of_ne feed0 (by decide))
    (tcbd_eq feed0 (by decide))

/-! ### C5: busiest week -/

/-- `isoweek.Week.withdate` keyed by its Monday: two dates fall in the
same ISO year+week exactly when they share the Monday that starts it, and
`Week.toordinal` is strictly monotone in that Monday, so the Monday's
ordinal (`d - ((d - 1) % 7)`, Monday = weekday 0) serves as both the
grouping key and the earliest-week tie-break key. -/
def weekKey (d : Nat) : Nat :=
  d - ((d - 1) % 7)

/-- `weekly_trip_counts[week]`: the sum of the per-date trip counts over
the dates of the map that fall in week `w`. -/
def weekTotal (c : FMap Nat Nat) (ks : Finset Nat) (w : Nat) : Nat :=
  ∑ d ∈ ks.filter (fun d => weekKey d = w), c.val d

/-- `_busiest_week`: group the dates of the date map into ISO weeks, pick
the week maximising the summed trip count (ties toward the earliest
week), and return the date map restricted to that week's member dates. -/
def busiest_week (f : FeedCal) : Option (FMap Nat (Finset String)) :=
  (service_ids_by_date f).bind fun m =>
    (trip_counts_by_date f).bind fun c =>
      match (m.keys.image weekKey).sort (· ≤ ·) with
      | [] => none
      | w0 :: rest =>
        some ⟨m.keys.filter
            (fun d => weekKey d = pickBest (weekTotal c m.keys) rest w0),
          m.val⟩

/-- C5: `_busiest_week` returns the restriction of the date map to the
member dates of the week bucket with the maximal total (earliest week on
ties): the result's keys are exactly the map's dates falling in the
chosen week (so a subset of the map's dates, not all seven calendar
days), its values agree with the date map, and the chosen week's total is
the sum of the returned dates' counts and is maximal among all buckets. -/
theorem c5_busiest_week (f : FeedCal) (m : FMap Nat (Finset String))
    (c : FMap Nat Nat) (hm : service_ids_by_date f = some m)
    (hc : trip_counts_by_date f = some c) :
    ∃ w r, busiest_week f = some r ∧
      r.keys = m.keys.filter (fun d => weekKey d = w) ∧
      r.keys ⊆ m.keys ∧
      (∀ d, r.val d = m.val d) ∧
      w ∈ m.keys.image weekKey ∧
      weekTotal c m.keys w = ∑ d ∈ r.keys, c.val d ∧
      (∀ x ∈ m.keys.image weekKey, weekTotal c m.keys x ≤ weekTotal c m.keys w) ∧
      (∀ x ∈ m.keys.image weekKey,
        weekTotal c m.keys x = weekTotal c m.keys w → w ≤ x) := by
  have hkne : m.keys.Nonempty := by
    rw [((sibd_eq_some_iff f m).1 hm).2]
    exact Finset.nonempty_iff_ne_empty.2 ((sibd_eq_some_iff f m).1 hm).1
  have himgne : (m.keys.image weekKey).Nonempty := hkne.image weekKey
  obtain ⟨we, hwe⟩ := himgne
  have hmemwe : we ∈ (m.keys.image weekKey).sort (· ≤ ·) :=
    (Finset.mem_sort _).2 hwe
  cases hs : (m.keys.image weekKey).sort (· ≤ ·) with
  | nil =>
    rw [hs] at hmemwe
    exact absurd hmemwe (List.not_mem_nil we)
  | cons w0 rest =>
    obtain ⟨hmem, hdom⟩ := pickBest_spec (weekTotal c m.keys) rest w0
    refine ⟨pickBest (weekTotal c m.keys) rest w0,
      ⟨m.keys.filter (fun d => weekKey d = pickBest (weekTotal c m.keys) rest w0),
        m.val⟩, ?_, rfl, Finset.filter_subset _ _, fun d => rfl, ?_, rfl, ?_, ?_⟩
    · unfold busiest_week
      rw [hm, hc]
      simp only [Option.some_bind]
      rw [hs]
    · rw [← Finset.mem_sort (· ≤ ·), hs]
      exact hmem
    · intro x hx
      have hx' : x ∈ w0 :: rest := by
        rw [← hs]
        exact (Finset.mem_sort _).2 hx
      have hal := hdom x hx'
      unfold AtLeast at hal
      omega
    · intro x hx he
      have hx' : x ∈ w0 :: rest := by
        rw [← hs]
        exact (Finset.mem_sort _).2 hx
      have hal := hdom x hx'
      unfold AtLeast at hal
      omega

theorem c5_busiest_week_witness :
    ∃ w r, busiest_week feed0 = some r ∧
      r.keys = m0.keys.filter (fun d => weekKey d = w) ∧
      r.keys ⊆ m0.keys ∧
      (∀ d, r.val d = m0.val d) ∧
      w ∈ m0.keys.image weekKey ∧
      weekTotal tc0 m0.keys w = ∑ d ∈ r.keys, tc0.val d ∧
      (∀ x ∈ m0.keys.image weekKey,
        weekTotal tc0 m0.keys x ≤ weekTotal tc0 m0.keys w) ∧
      (∀ x ∈ m0.keys.image weekKey,
        weekTotal tc0 m0.keys x = weekTotal tc0 m0.keys w → w ≤ x) :=
  c5_busiest_week feed0 m0 tc0 (sibd_some_of_ne feed0 (by decide))
    (tcbd_eq feed0 (by decide))

/-! ### Feed loading and view composition

The `Feed` view machinery (`gtfs.py`, `config.py`) is not part of the
sources at hand; only its orchestration in `readers.py` is.  The view
semantics below is therefore modelled from the spec.  Tables are indexed
by a type `τ`, a table is its list of rows (rows abstracted to `Nat`
identifiers), `rel t r u s` decides whether row `r` of table `t`
referentially matches row `s` of the adjacent table `u`, and
`path T F` is the vertex path from table `T` to table `F` in the
dependency forest after rerooting at `F` (`[]` when `T` is not reachable
from `F`; `path T F = [T]` when `T = F`). -/

section Views

variable {τ : Type}

/-- Modelled from the spec: the referential cascade along a table path.
`chainW rel P ψ t r rest` holds when, walking from row `r` of table `t`
along the remaining tables `rest`, each step can pick a row of the next
table (drawn from the previous layer `P`) matching the current one, and
the final row satisfies `ψ`. -/
def chainW (rel : τ → Nat → τ → Nat → Bool) (P : τ → List Nat)
    (ψ : τ → Nat → Bool) : τ → Nat → List τ → Bool
  | t, r, [] => ψ t r
  | t, r, u :: rest => (P u).any fun s => rel t r u s && chainW rel P ψ u s rest

/-- Modelled from the spec: one `FilteredView` layer with column filter
`φ` on table `F` (rows of `F` keep those passing `φ`).  A table `T`
reachable from `F` keeps the rows that still match, link by link along
the rerooted path towards `F`, a surviving filtered row; an unreachable
table passes through unchanged. -/
def layer (rel : τ → Nat → τ → Nat → Bool) (path : τ → τ → List τ)
    (F : τ) (φ : Nat → Bool) (P : τ → List Nat) : τ → List Nat :=
  fun T =>
    match path T F with
    | [] => P T
    | _ :: rest => (P T).filter fun r => chainW rel P (fun _ s => φ s) T r rest

/-- The filter-layer stack of `_load_feed`: one incremental view per
`(filename, column_filter)` pair, in the supplied order, each resolved
against the original (rerooted, not previously distorted) topology. -/
def load_feed_views (rel : τ → Nat → τ → Nat → Bool) (path : τ → τ → List τ)
    (filters : List (τ × (Nat → Bool))) (base : τ → List Nat) : τ → List Nat :=
  filters.foldl (fun P fp => layer rel path fp.1 fp.2 P) base

/-- Modelled from the spec: the final `Feed(feed, config=config)` layer,
which performs every value conversion exactly once after filtering has
settled. -/
def convertLayer (conv : τ → Nat → Nat) (P : τ → List Nat) : τ → List Nat :=
  fun T => (P T).map (conv T)

/-- `_load_feed`: the unfiltered base view, one filter layer per entry of
the view, and the converting layer on top. -/
def loadFeedTables (rel : τ → Nat → τ → Nat → Bool) (path : τ → τ → List τ)
    (conv : τ → Nat → Nat) (filters : List (τ × (Nat → Bool)))
    (base : τ → List Nat) : τ → List Nat :=
  convertLayer conv (load_feed_views rel path filters base)

end Views

/-! ### C8: `load_feed` error behaviour -/

/-- The user-supplied config graph (`networkx.DiGraph`): directed edges
over table identifiers. -/
structure Digraph where
  nodes : List Nat
  edges : List (Nat × Nat)

def succs (g : Digraph) (v : Nat) : List Nat :=
  (g.edges.filter (fun e => e.1 = v)).map (fun e => e.2)

/-- Vertices reachable from `v` by at most `n` edges (with repetitions;
only membership matters). -/
def reachList (g : Digraph) : Nat → Nat → List Nat
  | 0, v => [v]
  | n + 1, v => v :: (succs g v).flatMap (reachList g n)

/-- `not nx.is_directed_acyclic_graph(config)`: some vertex lies on a
directed cycle (a cycle, if any, has length at most the vertex count). -/
def hasCycle (g : Digraph) : Bool :=
  g.nodes.any fun v =>
    (succs g v).any fun u => (reachList g g.nodes.length u).contains v

/-- What `os.path` reports for the supplied path. -/
inductive PathStatus
  | isdir
  | isfile
  | missing
deriving DecidableEq

/-- `load_feed`'s failure modes: the `ValueError("Config must be a DAG")`
and the `ValueError("File or path not found")`. -/
inductive LoadErr
  | configError
  | inputError
deriving DecidableEq

/-- `load_feed` (readers.py lines 33-49): the DAG check runs first, on
the graph alone; only then is the filesystem consulted, a directory or a
file (unpacked to a directory) is loaded via `_load_feed`, and anything
else is rejected. -/
def load_feed {τ : Type} (g : Digraph) (p : PathStatus)
    (rel : τ → Nat → τ → Nat → Bool) (path : τ → τ → List τ)
    (conv : τ → Nat → Nat) (filters : List (τ × (Nat → Bool)))
    (base : τ → List Nat) : Except LoadErr (τ → List Nat) :=
  if hasCycle g then .error .configError
  else
    match p with
    | .isdir => .ok (loadFeedTables rel path conv filters base)
    | .isfile => .ok (loadFeedTables rel path conv filters base)
    | .missing => .error .inputError

/-- C8: a cyclic config graph makes `load_feed` fail with the
configuration error whatever the filesystem says about the path (the
check precedes any filesystem access); with an acyclic graph it fails
with the input error exactly when the path is neither an existing
directory nor an existing file. -/
theorem c8_load_feed_errors {τ : Type} (g : Digraph)
    (rel : τ → Nat → τ → Nat → Bool) (path : τ → τ → List τ)
    (conv : τ → Nat → Nat) (filters : List (τ × (Nat → Bool)))
    (base : τ → List Nat) :
    (hasCycle g = true →
      ∀ p, load_feed g p rel path conv filters base = .error .configError) ∧
    (hasCycle g = false →
      ∀ p, (load_feed g p rel path conv filters base = .error .inputError ↔
        p = .missing)) := by
  constructor
  · intro hcyc p
    unfold load_feed
    rw [if_pos hcyc]
  · intro hacyc p
    unfold load_feed
    rw [if_neg (by simp [hacyc])]
    cases p <;> simp

/-- A two-vertex directed cycle. -/
def gCyc : Digraph :=
  ⟨[0, 1], [(0, 1), (1, 0)]⟩

/-- A two-vertex acyclic graph. -/
def gAcyc : Digraph :=
  ⟨[0, 1], [(0, 1)]⟩

theorem c8_load_feed_errors_witness :
    load_feed gCyc .missing (fun (_ : Nat) _ _ _ => true) (fun _ _ => [])
        (fun _ r => r) [] (fun _ => []) = .error .configError ∧
      load_feed gAcyc .missing (fun (_ : Nat) _ _ _ => true) (fun _ _ => [])
        (fun _ r => r) [] (fun _ => []) = .error .inputError ∧
      load_feed gAcyc .isdir (fun (_ : Nat) _ _ _ => true) (fun _ _ => [])
        (fun _ r => r) [] (fun _ => []) ≠ .error .inputError :=
  ⟨(c8_load_feed_errors gCyc _ _ _ _ _).1 (by decide) .missing,
   ((c8_load_feed_errors gAcyc _ _ _ _ _).2 (by decide) .missing).2 rfl,
   fun h => by
     have h2 := ((c8_load_feed_errors gAcyc (fun (_ : Nat) _ _ _ => true)
       (fun _ _ => []) (fun _ r => r) [] (fun _ => [])).2 (by decide) .isdir).1 h
     exact PathStatus.noConfusion h2⟩

/-! ### C7: infrastructure for the view-layer cascade -/

section ViewLemmas

variable {τ : Type}

theorem getD_irrel {α : Type} (l : List α) (i : Nat) (h : i < l.length)
    (d₁ d₂ : α) : l.getD i d₁ = l.getD i d₂ := by
  rw [List.getD_eq_getElem l d₁ h, List.getD_eq_getElem l d₂ h]

theorem getLastD_take {α : Type} (l : List α) (d : α) :
    ∀ i, i ≤ l.length → (l.take i).getLastD d = (d :: l).getD i d := by
  induction l generalizing d with
  | nil =>
    intro i hi
    have h0 : i = 0 := Nat.le_zero.1 (by simpa using hi)
    subst h0
    rfl
  | cons a l ih =>
    intro i hi
    cases i with
    | zero => rfl
    | succ i =>
      have hi' : i ≤ l.length := by simpa using hi
      have h1 : ((a :: l).take (i + 1)).getLastD d = (l.take i).getLastD a := by
        rw [List.take_succ_cons, List.getLastD_cons]
      rw [h1, ih a i hi', List.getD_cons_succ]
      exact getD_irrel _ _ (by simpa [Nat.lt_succ_iff] using hi') _ _

theorem getLastD_drop {α : Type} (l : List α) (d : α) :
    ∀ i, i ≤ l.length → (l.drop i).getLastD ((d :: l).getD i d) = l.getLastD d := by
  induction l generalizing d with
  | nil =>
    intro i hi
    have h0 : i = 0 := Nat.le_zero.1 (by simpa using hi)
    subst h0
    rfl
  | cons a l ih =>
    intro i hi
    cases i with
    | zero => rfl
    | succ i =>
      have hi' : i ≤ l.length := by simpa using hi
      have h1 : (d :: a :: l).getD (i + 1) d = (a :: l).getD i a := by
        rw [List.getD_cons_succ]
        exact getD_irrel _ _ (by simpa [Nat.lt_succ_iff] using hi') _ _
      rw [List.drop_succ_cons, h1, ih a i hi', List.getLastD_cons]

theorem chainW_nil (rel : τ → Nat → τ → Nat → Bool) (P : τ → List Nat)
    (ψ : τ → Nat → Bool) (t : τ) (r : Nat) : chainW rel P ψ t r [] = ψ t r :=
  rfl

theorem chainW_cons_iff (rel : τ → Nat → τ → Nat → Bool) (P : τ → List Nat)
    (ψ : τ → Nat → Bool) (t : τ) (r : Nat) (u : τ) (rest : List τ) :
    chainW rel P ψ t r (u :: rest) = true ↔
      ∃ s ∈ P u, rel t r u s = true ∧ chainW rel P ψ u s rest = true := by
  show (P u).any _ = true ↔ _
  rw [List.any_eq_true]
  constructor
  · rintro ⟨s, hs, hb⟩
    rw [Bool.and_eq_true] at hb
    exact ⟨s, hs, hb.1, hb.2⟩
  · rintro ⟨s, hs, h1, h2⟩
    refine ⟨s, hs, ?_⟩
    rw [Bool.and_eq_true]
    exact ⟨h1, h2⟩

/-- The explicit witness rows of a cascade chain: `ss` lists, table by
table along `pth`, the matching rows drawn from `P`. -/
def Stones (rel : τ → Nat → τ → Nat → Bool) (P : τ → List Nat) :
    τ → Nat → List τ → List Nat → Prop
  | _, _, [], [] => True
  | t, r, u :: pth, s :: ss => s ∈ P u ∧ rel t r u s = true ∧ Stones rel P u s pth ss
  | _, _, [], _ :: _ => False
  | _, _, _ :: _, [] => False

theorem stones_length (rel : τ → Nat → τ → Nat → Bool) (P : τ → List Nat) :
    ∀ (pth : List τ) (ss : List Nat) (t : τ) (r : Nat),
      Stones rel P t r pth ss → ss.length = pth.length := by
  intro pth
  induction pth with
  | nil =>
    intro ss t r h
    cases ss with
    | nil => rfl
    | cons s ss => exact absurd h (by simp [Stones])
  | cons u pth ih =>
    intro ss t r h
    cases ss with
    | nil => exact absurd h (by simp [Stones])
    | cons s ss =>
      obtain ⟨-, -, h3⟩ := h
      simpa using ih ss u s h3

theorem chainW_iff_stones (rel : τ → Nat → τ → Nat → Bool) (P : τ → List Nat)
    (ψ : τ → Nat → Bool) :
    ∀ (pth : List τ) (t : τ) (r : Nat),
      chainW rel P ψ t r pth = true ↔
        ∃ ss, Stones rel P t r pth ss ∧
          ψ (pth.getLastD t) (ss.getLastD r) = true := by
  intro pth
  induction pth with
  | nil =>
    intro t r
    constructor
    · intro h
      exact ⟨[], trivial, h⟩
    · rintro ⟨ss, hst, hψ⟩
      cases ss with
      | nil => exact hψ
      | cons s ss => exact absurd hst (by simp [Stones])
  | cons u rest ih =>
    intro t r
    rw [chainW_cons_iff]
    constructor
    · rintro ⟨s, hs, hrel, hch⟩
      obtain ⟨ss, hst, hψ⟩ := (ih u s).1 hch
      refine ⟨s :: ss, ⟨hs, hrel, hst⟩, ?_⟩
      rwa [List.getLastD_cons, List.getLastD_cons]
    · rintro ⟨ss, hst, hψ⟩
      cases ss with
      | nil => exact absurd hst (by simp [Stones])
      | cons s ss =>
        obtain ⟨hs, hrel, hst'⟩ := hst
        refine ⟨s, hs, hrel, (ih u s).2 ⟨ss, hst', ?_⟩⟩
        rwa [List.getLastD_cons, List.getLastD_cons] at hψ

theorem stones_of_subset (rel : τ → Nat → τ → Nat → Bool)
    (P P' : τ → List Nat) (hsub : ∀ u x, x ∈ P u → x ∈ P' u) :
    ∀ (pth : List τ) (ss : List Nat) (t : τ) (r : Nat),
      Stones rel P t r pth ss → Stones rel P' t r pth ss := by
  intro pth
  induction pth with
  | nil =>
    intro ss t r h
    cases ss with
    | nil => trivial
    | cons s ss => exact absurd h (by simp [Stones])
  | cons u pth ih =>
    intro ss t r h
    cases ss with
    | nil => exact absurd h (by simp [Stones])
    | cons s ss =>
      obtain ⟨h1, h2, h3⟩ := h
      exact ⟨hsub u s h1, h2, ih ss u s h3⟩

theorem stones_strengthen (rel : τ → Nat → τ → Nat → Bool)
    (P P' : τ → List Nat) :
    ∀ (pth : List τ) (ss : List Nat) (t : τ) (r : Nat),
      Stones rel P t r pth ss →
      (∀ i, i < pth.length → ss.getD i 0 ∈ P' (pth.getD i t)) →
      Stones rel P' t r pth ss := by
  intro pth
  induction pth with
  | nil =>
    intro ss t r h _
    cases ss with
    | nil => trivial
    | cons s ss => exact absurd h (by simp [Stones])
  | cons u pth ih =>
    intro ss t r h hmem
    cases ss with
    | nil => exact absurd h (by simp [Stones])
    | cons s ss =>
      obtain ⟨h1, h2, h3⟩ := h
      refine ⟨by simpa using hmem 0 (by simp), h2, ih ss u s h3 ?_⟩
      intro i hi
      have := hmem (i + 1) (by simpa using hi)
      rw [List.getD_cons_succ, List.getD_cons_succ] at this
      rwa [getD_irrel pth i hi u t]

theorem stones_getD_mem (rel : τ → Nat → τ → Nat → Bool) (P : τ → List Nat) :
    ∀ (pth : List τ) (ss : List Nat) (t : τ) (r : Nat),
      Stones rel P t r pth ss →
      ∀ i, i < pth.length → ss.getD i 0 ∈ P (pth.getD i t) := by
  intro pth
  induction pth with
  | nil =>
    intro ss t r _ i hi
    exact absurd hi (by simp)
  | cons u pth ih =>
    intro ss t r h i hi
    cases ss with
    | nil => exact absurd h (by simp [Stones])
    | cons s ss =>
      obtain ⟨h1, h2, h3⟩ := h
      cases i with
      | zero => simpa using h1
      | succ i =>
        have hi' : i < pth.length := by simpa using hi
        have := ih ss u s h3 i hi'
        rw [List.getD_cons_succ, List.getD_cons_succ]
        rwa [getD_irrel pth i hi' t u]

theorem stones_link (rel : τ → Nat → τ → Nat → Bool) (P : τ → List Nat) :
    ∀ (pth : List τ) (ss : List Nat) (t : τ) (r : Nat),
      Stones rel P t r pth ss →
      ∀ i, i < pth.length →
        rel ((t :: pth).getD i t) ((r :: ss).getD i r)
          (pth.getD i t) (ss.getD i 0) = true := by
  intro pth
  induction pth with
  | nil =>
    intro ss t r _ i hi
    exact absurd hi (by simp)
  | cons u pth ih =>
    intro ss t r h i hi
    cases ss with
    | nil => exact absurd h (by simp [Stones])
    | cons s ss =>
      obtain ⟨h1, h2, h3⟩ := h
      cases i with
      | zero => simpa using h2
      | succ i =>
        have hi' : i < pth.length := by simpa using hi
        have hrec := ih ss u s h3 i hi'
        rw [List.getD_cons_succ, List.getD_cons_succ, List.getD_cons_succ,
          List.getD_cons_succ]
        have e1 : (u :: pth).getD i t = (u :: pth).getD i u :=
          getD_irrel _ _ (by simpa [Nat.lt_succ_iff] using Nat.le_of_lt hi') _ _
        have e2 : (s :: ss).getD i r = (s :: ss).getD i s := by
          have hlen : ss.length = pth.length := stones_length rel P pth ss u s h3
          exact getD_irrel _ _ (by simp [hlen]; omega) _ _
        have e3 : pth.getD i t = pth.getD i u := getD_irrel _ _ hi' _ _
        rw [e1, e2, e3]
        exact hrec

theorem stones_drop (rel : τ → Nat → τ → Nat → Bool) (P : τ → List Nat) :
    ∀ (i : Nat) (pth : List τ) (ss : List Nat) (t : τ) (r : Nat),
      Stones rel P t r pth ss → i ≤ pth.length →
      Stones rel P ((t :: pth).getD i t) ((r :: ss).getD i r)
        (pth.drop i) (ss.drop i) := by
  intro i
  induction i with
  | zero =>
    intro pth ss t r h _
    exact h
  | succ i ih =>
    intro pth ss t r h hi
    cases pth with
    | nil => exact absurd hi (by simp)
    | cons u pth =>
      cases ss with
      | nil => exact absurd h (by simp [Stones])
      | cons s ss =>
        obtain ⟨h1, h2, h3⟩ := h
        have hi' : i ≤ pth.length := by simpa using hi
        have hrec := ih pth ss u s h3 hi'
        rw [List.getD_cons_succ, List.getD_cons_succ, List.drop_succ_cons,
          List.drop_succ_cons]
        have hlen : ss.length = pth.length := stones_length rel P pth ss u s h3
        by_cases hilt : i < pth.length
        · have e1 : (u :: pth).getD i t = (u :: pth).getD i u :=
            getD_irrel _ _ (by simp; omega) _ _
          have e2 : (s :: ss).getD i r = (s :: ss).getD i s :=
            getD_irrel _ _ (by simp [hlen]; omega) _ _
          rw [e1, e2]
          exact hrec
        · have hieq : i = pth.length := by omega
          have hdrop1 : pth.drop i = [] := by
            rw [List.drop_eq_nil_iff]
            omega
          have hdrop2 : ss.drop i = [] := by
            rw [List.drop_eq_nil_iff]
            omega
          rw [hdrop1, hdrop2]
          trivial

theorem stones_take (rel : τ → Nat → τ → Nat → Bool) (P : τ → List Nat) :
    ∀ (pth : List τ) (ss : List Nat) (t : τ) (r : Nat),
      Stones rel P t r pth ss → ∀ i, Stones rel P t r (pth.take i) (ss.take i) := by
  intro pth
  induction pth with
  | nil =>
    intro ss t r h i
    cases ss with
    | nil => simpa using h
    | cons s ss => exact absurd h (by simp [Stones])
  | cons u pth ih =>
    intro ss t r h i
    cases ss with
    | nil => exact absurd h (by simp [Stones])
    | cons s ss =>
      obtain ⟨h1, h2, h3⟩ := h
      cases i with
      | zero => trivial
      | succ i =>
        rw [List.take_succ_cons, List.take_succ_cons]
        exact ⟨h1, h2, ih ss u s h3 i⟩

theorem stones_append (rel : τ → Nat → τ → Nat → Bool) (P : τ → List Nat) :
    ∀ (p : List τ) (ss : List Nat) (q : List τ) (tt : List Nat) (t : τ) (r : Nat),
      Stones rel P t r p ss →
      Stones rel P (p.getLastD t) (ss.getLastD r) q tt →
      Stones rel P t r (p ++ q) (ss ++ tt) := by
  intro p
  induction p with
  | nil =>
    intro ss q tt t r h1 h2
    cases ss with
    | nil => simpa using h2
    | cons s ss => exact absurd h1 (by simp [Stones])
  | cons u p ih =>
    intro ss q tt t r h1 h2
    cases ss with
    | nil => exact absurd h1 (by simp [Stones])
    | cons s ss =>
      obtain ⟨ha, hb, hc⟩ := h1
      rw [List.getLastD_cons, List.getLastD_cons] at h2
      exact ⟨ha, hb, ih ss q tt u s hc h2⟩

theorem chainW_append (rel : τ → Nat → τ → Nat → Bool) (P : τ → List Nat)
    (ψ : τ → Nat → Bool) :
    ∀ (p q : List τ) (t : τ) (r : Nat),
      chainW rel P ψ t r (p ++ q) =
        chainW rel P (fun u s => chainW rel P ψ u s q) t r p := by
  intro p
  induction p with
  | nil =>
    intro q t r
    rfl
  | cons u p ih =>
    intro q t r
    show (P u).any _ = (P u).any _
    have he : (fun s => rel t r u s && chainW rel P ψ u s (p ++ q)) =
        (fun s => rel t r u s &&
          chainW rel P (fun u' s' => chainW rel P ψ u' s' q) u s p) := by
      funext s
      rw [ih q u s]
    exact congrArg (List.any (P u)) he

theorem chainW_congr (rel : τ → Nat → τ → Nat → Bool) (P₁ P₂ : τ → List Nat)
    (ψ : τ → Nat → Bool) :
    ∀ (pth : List τ) (t : τ) (r : Nat), (∀ u ∈ pth, P₁ u = P₂ u) →
      chainW rel P₁ ψ t r pth = chainW rel P₂ ψ t r pth := by
  intro pth
  induction pth with
  | nil =>
    intro t r _
    rfl
  | cons u rest ih =>
    intro t r h
    show (P₁ u).any _ = (P₂ u).any _
    rw [h u (List.mem_cons_self _ _)]
    have he : (fun s => rel t r u s && chainW rel P₁ ψ u s rest) =
        (fun s => rel t r u s && chainW rel P₂ ψ u s rest) := by
      funext s
      rw [ih u s (fun v hv => h v (List.mem_cons_of_mem _ hv))]
    exact congrArg (List.any (P₂ u)) he

theorem chainW_mono (rel : τ → Nat → τ → Nat → Bool) (P P' : τ → List Nat)
    (ψ : τ → Nat → Bool) (hsub : ∀ u x, x ∈ P u → x ∈ P' u)
    (pth : List τ) (t : τ) (r : Nat) (h : chainW rel P ψ t r pth = true) :
    chainW rel P' ψ t r pth = true := by
  obtain ⟨ss, hst, hψ⟩ := (chainW_iff_stones rel P ψ pth t r).1 h
  exact (chainW_iff_stones rel P' ψ pth t r).2
    ⟨ss, stones_of_subset rel P P' hsub pth ss t r hst, hψ⟩

theorem layer_eq_pass (rel : τ → Nat → τ → Nat → Bool) (path : τ → τ → List τ)
    (F : τ) (φ : Nat → Bool) (P : τ → List Nat) (T : τ) (h : path T F = []) :
    layer rel path F φ P T = P T := by
  simp only [layer, h]

theorem layer_eq_filter (rel : τ → Nat → τ → Nat → Bool) (path : τ → τ → List τ)
    (F : τ) (φ : Nat → Bool) (P : τ → List Nat) (T : τ) (a : τ) (rest : List τ)
    (h : path T F = a :: rest) :
    layer rel path F φ P T =
      (P T).filter fun r => chainW rel P (fun _ s => φ s) T r rest := by
  simp only [layer, h]

theorem layer_subset (rel : τ → Nat → τ → Nat → Bool) (path : τ → τ → List τ)
    (F : τ) (φ : Nat → Bool) (P : τ → List Nat) (T : τ) :
    ∀ x ∈ layer rel path F φ P T, x ∈ P T := by
  intro x hx
  cases hp : path T F with
  | nil =>
    rw [layer_eq_pass rel path F φ P T hp] at hx
    exact hx
  | cons a rest =>
    rw [layer_eq_filter rel path F φ P T a rest hp] at hx
    exact (List.mem_filter.1 hx).1

/-- Modelled from the spec: the properties of the path function induced
by a dependency forest (the "original topology" every filter layer is
resolved against).  `path t f` is the unique vertex path from `t` to the
reroot target `f` when the two are connected, `[]` otherwise; the match
relation of an edge reads the same in both directions (a shared-column
equijoin). -/
structure IsForestPaths (rel : τ → Nat → τ → Nat → Bool)
    (path : τ → τ → List τ) : Prop where
  self_eq : ∀ t, path t t = [t]
  head_eq : ∀ t f, path t f ≠ [] → (path t f).head? = some t
  symm_rel : ∀ t r u s, rel t r u s = rel u s t r
  rev_ne : ∀ t f, path t f ≠ [] → path f t ≠ []
  conn : ∀ t a b, path t a ≠ [] → path a b ≠ [] → path t b ≠ []
  suffix_eq : ∀ t f i, i < (path t f).length →
      path ((path t f).getD i t) f = (path t f).drop i
  median : ∀ t a b, path t a ≠ [] → path t b ≠ [] → ∃ i,
      i < (path t a).length ∧ i < (path t b).length ∧
      (path t a).take (i + 1) = (path t b).take (i + 1) ∧
      ∀ x ∈ (path t a).drop (i + 1), x ∉ (path t b).drop (i + 1)
  branch_step : ∀ m a b, path m a ≠ [] → path m b ≠ [] →
      (∀ x ∈ (path m a).drop 1, x ∉ (path m b).drop 1) →
      ∀ j, j < (path m a).length - 1 →
        path ((path m a).getD (j + 1) m) b =
          (path m a).getD (j + 1) m :: path ((path m a).getD j m) b

theorem path_cons {rel : τ → Nat → τ → Nat → Bool} {path : τ → τ → List τ}
    (hF : IsForestPaths rel path) (t f : τ) (h : path t f ≠ []) :
    path t f = t :: (path t f).tail := by
  cases hp : path t f with
  | nil => exact absurd hp h
  | cons a rest =>
    have hh := hF.head_eq t f h
    rw [hp] at hh
    have ha : a = t := by simpa using hh
    rw [ha]
    rfl

theorem path_getD_eq {rel : τ → Nat → τ → Nat → Bool} {path : τ → τ → List τ}
    (hF : IsForestPaths rel path) (t f : τ) (i : Nat)
    (h : i < (path t f).length) (d : τ) :
    path ((path t f).getD i d) f = (path t f).drop i := by
  rw [getD_irrel _ _ h d t]
  exact hF.suffix_eq t f i h

theorem path_getD_ne {rel : τ → Nat → τ → Nat → Bool} {path : τ → τ → List τ}
    (hF : IsForestPaths rel path) (t f : τ) (i : Nat)
    (h : i < (path t f).length) (d : τ) :
    path ((path t f).getD i d) f ≠ [] := by
  rw [path_getD_eq hF t f i h d]
  intro hc
  rw [List.drop_eq_nil_iff] at hc
  omega

theorem path_mem_ne {rel : τ → Nat → τ → Nat → Bool} {path : τ → τ → List τ}
    (hF : IsForestPaths rel path) {t f v : τ} (hv : v ∈ path t f) :
    path v f ≠ [] := by
  obtain ⟨n, hn⟩ := List.mem_iff_get.1 hv
  have h1 := path_getD_ne hF t f n.1 n.2 t
  rwa [List.getD_eq_getElem _ _ n.2, ← List.get_eq_getElem, hn] at h1

theorem path_mem_conn {rel : τ → Nat → τ → Nat → Bool} {path : τ → τ → List τ}
    (hF : IsForestPaths rel path) {t a b v : τ} (hta : path t a ≠ [])
    (htb : path t b ≠ []) (hv : v ∈ path t a) : path v b ≠ [] :=
  hF.conn v a b (path_mem_ne hF hv)
    (hF.conn a t b (hF.rev_ne _ _ hta) htb)

theorem path_unreach {rel : τ → Nat → τ → Nat → Bool} {path : τ → τ → List τ}
    (hF : IsForestPaths rel path) {t a b v : τ} (hta : path t a ≠ [])
    (hv : v ∈ path t a) (htb : path t b = []) : path v b = [] := by
  by_contra hne
  have h1 : path t v ≠ [] :=
    hF.conn t a v hta (hF.rev_ne _ _ (path_mem_ne hF hv))
  exact absurd (hF.conn t v b h1 hne) (by rw [htb]; simp)

theorem path_getD_zero {rel : τ → Nat → τ → Nat → Bool} {path : τ → τ → List τ}
    (hF : IsForestPaths rel path) (t f : τ) (h : path t f ≠ []) (d : τ) :
    (path t f).getD 0 d = t := by
  cases hp : path t f with
  | nil => exact absurd hp h
  | cons a rest =>
    have hh := hF.head_eq t f h
    rw [hp] at hh
    have ha : a = t := by simpa using hh
    simp [ha]

theorem getD_succ_tail {α : Type} (l : List α) (h : l ≠ []) (p : Nat) (d : α) :
    l.getD (p + 1) d = l.tail.getD p d := by
  cases l with
  | nil => exact absurd rfl h
  | cons a rest => simp

theorem getD_take_eq {α : Type} (l : List α) (j k : Nat) (d : α)
    (h1 : k < j) (h2 : k < l.length) : (l.take j).getD k d = l.getD k d := by
  rw [List.getD_eq_getElem _ _ (by simp [List.length_take]; omega),
    List.getD_eq_getElem _ _ h2]
  exact List.getElem_take l

theorem getD_drop {α : Type} (l : List α) (ii k : Nat) (d : α) :
    (l.drop ii).getD k d = l.getD (ii + k) d := by
  by_cases h : ii + k < l.length
  · rw [List.getD_eq_getElem _ _ (by simp [List.length_drop]; omega),
      List.getD_eq_getElem _ _ h, List.getElem_drop]
  · rw [List.getD_eq_default _ _ (by simp [List.length_drop]; omega),
      List.getD_eq_default _ _ (by omega)]

theorem getD_mem_of_lt {α : Type} (l : List α) (k : Nat) (d : α)
    (h : k < l.length) : l.getD k d ∈ l := by
  rw [List.getD_eq_getElem _ _ h]
  exact List.getElem_mem h

/-- The heart of the order-independence argument: given an `A`-cascade
chain from `r` (its stones `ss` along `path T A`) and a `B`-cascade chain
out of the stone at the median position `i`, every stone of the
`A`-chain, at every position `k`, has a `B`-cascade chain of its own.
Positions on the shared trunk walk down the trunk and out of the median;
positions past the median walk back branch edge by branch edge (the
match relation is symmetric). -/
theorem stone_chains {rel : τ → Nat → τ → Nat → Bool} {path : τ → τ → List τ}
    (hF : IsForestPaths rel path) {A B T : τ} {P : τ → List Nat}
    {β : Nat → Bool} {r : Nat} {ss : List Nat}
    (hTA : path T A ≠ []) (hTB : path T B ≠ [])
    {i : Nat} (hia : i < (path T A).length) (hib : i < (path T B).length)
    (htake : (path T A).take (i + 1) = (path T B).take (i + 1))
    (hdisj : ∀ x ∈ (path T A).drop (i + 1), x ∉ (path T B).drop (i + 1))
    (hr : r ∈ P T)
    (hst : Stones rel P T r (path T A).tail ss)
    (hbase : chainW rel P (fun _ s => β s) ((path T A).getD i T)
      ((r :: ss).getD i r) ((path T B).drop (i + 1)) = true) :
    ∀ k, k < (path T A).length →
      chainW rel P (fun _ s => β s) ((path T A).getD k T) ((r :: ss).getD k r)
        (path ((path T A).getD k T) B).tail = true := by
  have hconsA : path T A = T :: (path T A).tail := path_cons hF T A hTA
  have hlenss : ss.length = (path T A).tail.length :=
    stones_length rel P (path T A).tail ss T r hst
  have hlentail : (path T A).tail.length = (path T A).length - 1 :=
    List.length_tail _
  have hlenpos : 0 < (path T A).length := by omega
  have hmem_at : ∀ p, p < (path T A).length →
      (r :: ss).getD p r ∈ P ((path T A).getD p T) := by
    intro p hp
    cases p with
    | zero =>
      rw [List.getD_cons_zero, path_getD_zero hF T A hTA T]
      exact hr
    | succ p =>
      have hp' : p < (path T A).tail.length := by omega
      have hm := stones_getD_mem rel P (path T A).tail ss T r hst p hp'
      have e1 : (r :: ss).getD (p + 1) r = ss.getD p 0 := by
        rw [List.getD_cons_succ]
        exact getD_irrel _ _ (by omega) _ _
      have e2 : (path T A).getD (p + 1) T = (path T A).tail.getD p T :=
        getD_succ_tail _ hTA p T
      rw [e1, e2]
      exact hm
  have hlink : ∀ p, p + 1 < (path T A).length →
      rel ((path T A).getD p T) ((r :: ss).getD p r)
        ((path T A).getD (p + 1) T) ((r :: ss).getD (p + 1) r) = true := by
    intro p hp
    have hp' : p < (path T A).tail.length := by omega
    have hl := stones_link rel P (path T A).tail ss T r hst p hp'
    rw [← hconsA] at hl
    have e2 : (path T A).getD (p + 1) T = (path T A).tail.getD p T :=
      getD_succ_tail _ hTA p T
    have e3 : (r :: ss).getD (p + 1) r = ss.getD p 0 := by
      rw [List.getD_cons_succ]
      exact getD_irrel _ _ (by omega) _ _
    rw [e2, e3]
    exact hl
  have htrunk_eq : ∀ k, k ≤ i → (path T A).getD k T = (path T B).getD k T := by
    intro k hk
    have h1 : ((path T A).take (i + 1)).getD k T = (path T A).getD k T :=
      getD_take_eq _ _ _ _ (by omega) (by omega)
    have h2 : ((path T B).take (i + 1)).getD k T = (path T B).getD k T :=
      getD_take_eq _ _ _ _ (by omega) (by omega)
    rw [← h1, ← h2, htake]
  have htrunkB : ∀ k, k ≤ i →
      path ((path T A).getD k T) B = (path T B).drop k := by
    intro k hk
    rw [htrunk_eq k hk]
    exact path_getD_eq hF T B k (by omega) T
  have hmB : path ((path T A).getD i T) B = (path T B).drop i :=
    htrunkB i le_rfl
  have hmA : path ((path T A).getD i T) A = (path T A).drop i :=
    path_getD_eq hF T A i hia T
  have trunk : ∀ j, j ≤ i →
      chainW rel P (fun _ s => β s) ((path T A).getD (i - j) T)
        ((r :: ss).getD (i - j) r)
        (path ((path T A).getD (i - j) T) B).tail = true := by
    intro j
    induction j with
    | zero =>
      intro _
      have e : (path ((path T A).getD (i - 0) T) B).tail =
          (path T B).drop (i + 1) := by
        rw [Nat.sub_zero, hmB, List.tail_drop]
      rw [e, Nat.sub_zero]
      exact hbase
    | succ j ih =>
      intro hj
      have hkk : i - (j + 1) + 1 = i - j := by omega
      have e1 : (path ((path T A).getD (i - (j + 1)) T) B).tail =
          path ((path T A).getD (i - j) T) B := by
        rw [htrunkB (i - (j + 1)) (by omega), List.tail_drop, hkk,
          htrunkB (i - j) (by omega)]
      rw [e1]
      have hne : path ((path T A).getD (i - j) T) B ≠ [] := by
        rw [htrunkB (i - j) (by omega)]
        intro hc
        rw [List.drop_eq_nil_iff] at hc
        omega
      rw [path_cons hF _ B hne]
      refine (chainW_cons_iff _ _ _ _ _ _ _).2
        ⟨(r :: ss).getD (i - j) r, hmem_at (i - j) (by omega), ?_, ?_⟩
      · have hl := hlink (i - (j + 1)) (by omega)
        rwa [hkk] at hl
      · exact ih (by omega)
  have branch : ∀ j, i + j < (path T A).length →
      chainW rel P (fun _ s => β s) ((path T A).getD (i + j) T)
        ((r :: ss).getD (i + j) r)
        (path ((path T A).getD (i + j) T) B).tail = true := by
    intro j
    induction j with
    | zero =>
      intro _
      have e : (path ((path T A).getD (i + 0) T) B).tail =
          (path T B).drop (i + 1) := by
        rw [Nat.add_zero, hmB, List.tail_drop]
      rw [e, Nat.add_zero]
      exact hbase
    | succ j ih =>
      intro hj
      have hmAne : path ((path T A).getD i T) A ≠ [] := by
        rw [hmA]
        intro hc
        rw [List.drop_eq_nil_iff] at hc
        omega
      have hmBne : path ((path T A).getD i T) B ≠ [] := by
        rw [hmB]
        intro hc
        rw [List.drop_eq_nil_iff] at hc
        omega
      have hdisj' : ∀ x ∈ (path ((path T A).getD i T) A).drop 1,
          x ∉ (path ((path T A).getD i T) B).drop 1 := by
        intro x hx
        rw [hmA, List.drop_drop] at hx
        rw [hmB, List.drop_drop]
        exact hdisj x hx
      have hjj : j + 1 < (path ((path T A).getD i T) A).length := by
        rw [hmA, List.length_drop]
        omega
      have hstep := hF.branch_step ((path T A).getD i T) A B hmAne hmBne
        hdisj' j (by omega)
      have hg1 : (path ((path T A).getD i T) A).getD (j + 1)
          ((path T A).getD i T) =
          (path ((path T A).getD i T) A).getD (j + 1) T :=
        getD_irrel _ _ hjj _ _
      have hg0 : (path ((path T A).getD i T) A).getD j
          ((path T A).getD i T) =
          (path ((path T A).getD i T) A).getD j T :=
        getD_irrel _ _ (Nat.lt_of_succ_lt hjj) _ _
      have eg1 : (path ((path T A).getD i T) A).getD (j + 1) T =
          (path T A).getD (i + (j + 1)) T := by
        rw [hmA, getD_drop]
      have eg0 : (path ((path T A).getD i T) A).getD j T =
          (path T A).getD (i + j) T := by
        rw [hmA, getD_drop]
      have hstep' : path ((path T A).getD (i + (j + 1)) T) B =
          (path T A).getD (i + (j + 1)) T ::
            path ((path T A).getD (i + j) T) B := by
        rw [← eg1, ← eg0, ← hg1, ← hg0]
        exact hstep
      have etail : (path ((path T A).getD (i + (j + 1)) T) B).tail =
          path ((path T A).getD (i + j) T) B := by
        rw [hstep']
        rfl
      have hne : path ((path T A).getD (i + j) T) B ≠ [] :=
        path_mem_conn hF hTA hTB (getD_mem_of_lt _ _ _ (by omega))
      rw [etail, path_cons hF _ B hne]
      refine (chainW_cons_iff _ _ _ _ _ _ _).2
        ⟨(r :: ss).getD (i + j) r, hmem_at (i + j) (by omega), ?_, ?_⟩
      · rw [hF.symm_rel]
        exact hlink (i + j) (by omega)
      · exact ih (by omega)
  intro k hk
  by_cases hki : k ≤ i
  · have ht := trunk (i - k) (by omega)
    rwa [show i - (i - k) = k from by omega] at ht
  · have hb := branch (k - i) (by omega)
    rwa [show i + (k - i) = k from by omega] at hb

theorem bool_eq_of_iff {a b : Bool} (h : a = true ↔ b = true) : a = b := by
  cases a <;> cases b <;> simp_all

theorem getD_eq_of_take_eq {α : Type} (l₁ l₂ : List α) (n k : Nat) (d : α)
    (h : l₁.take n = l₂.take n) (hk : k < n) (h1 : k < l₁.length)
    (h2 : k < l₂.length) : l₁.getD k d = l₂.getD k d := by
  rw [← getD_take_eq l₁ n k d hk h1, ← getD_take_eq l₂ n k d hk h2, h]

theorem getLastD_append {α : Type} (l₁ l₂ : List α) (d : α) :
    (l₁ ++ l₂).getLastD d = l₂.getLastD (l₁.getLastD d) := by
  induction l₁ generalizing d with
  | nil => rfl
  | cons a l₁ ih =>
    rw [List.cons_append, List.getLastD_cons, List.getLastD_cons]
    exact ih a

theorem mem_layer_iff_of_ne {rel : τ → Nat → τ → Nat → Bool}
    {path : τ → τ → List τ} (hF : IsForestPaths rel path) (F T : τ)
    (hne : path T F ≠ []) (φ : Nat → Bool) (P : τ → List Nat) (x : Nat) :
    x ∈ layer rel path F φ P T ↔
      x ∈ P T ∧ chainW rel P (fun _ s => φ s) T x (path T F).tail = true := by
  rw [layer_eq_filter rel path F φ P T T (path T F).tail (path_cons hF T F hne),
    List.mem_filter]

/-- The membership characterisation of two stacked filter layers in terms
of the previous layer only: a row of `T` survives the `B`-layer followed
by the `A`-layer exactly when it has an `A`-cascade chain over the
unfiltered tables whose stone at the median of `T`, `A`, `B` has a
`B`-cascade chain of its own. -/
theorem mem_double_layer_iff {rel : τ → Nat → τ → Nat → Bool}
    {path : τ → τ → List τ} (hF : IsForestPaths rel path)
    {A B T : τ} (hTA : path T A ≠ []) (hTB : path T B ≠ [])
    {i : Nat} (hia : i < (path T A).length) (hib : i < (path T B).length)
    (htake : (path T A).take (i + 1) = (path T B).take (i + 1))
    (hdisj : ∀ x ∈ (path T A).drop (i + 1), x ∉ (path T B).drop (i + 1))
    (φA φB : Nat → Bool) (P : τ → List Nat) (r : Nat) :
    r ∈ layer rel path A φA (layer rel path B φB P) T ↔
      (r ∈ P T ∧ ∃ ss, Stones rel P T r (path T A).tail ss ∧
        φA (ss.getLastD r) = true ∧
        chainW rel P (fun _ s => φB s) ((path T A).getD i T)
          ((r :: ss).getD i r) ((path T B).drop (i + 1)) = true) := by
  have hmB : path ((path T A).getD i T) B = (path T B).drop i := by
    rw [getD_eq_of_take_eq (path T A) (path T B) (i + 1) i T htake
      (by omega) (by omega) (by omega)]
    exact path_getD_eq hF T B i hib T
  have hmBne : path ((path T A).getD i T) B ≠ [] := by
    rw [hmB]
    intro hc
    rw [List.drop_eq_nil_iff] at hc
    omega
  have hmBtail : (path ((path T A).getD i T) B).tail = (path T B).drop (i + 1) := by
    rw [hmB, List.tail_drop]
  rw [mem_layer_iff_of_ne hF A T hTA, mem_layer_iff_of_ne hF B T hTB]
  constructor
  · rintro ⟨⟨hrP, hchB⟩, hchA⟩
    refine ⟨hrP, ?_⟩
    obtain ⟨ss, hstQ, hψ⟩ := (chainW_iff_stones _ _ _ _ _ _).1 hchA
    have hstP : Stones rel P T r (path T A).tail ss :=
      stones_of_subset rel _ P (fun u x hx => layer_subset rel path B φB P u x hx)
        _ ss T r hstQ
    have hlen : ss.length = (path T A).tail.length :=
      stones_length _ _ _ ss T r hstP
    refine ⟨ss, hstP, hψ, ?_⟩
    cases i with
    | zero =>
      rw [path_getD_zero hF T A hTA T, List.getD_cons_zero, Nat.zero_add,
        List.drop_one]
      exact hchB
    | succ p =>
      have hlentail : (path T A).tail.length = (path T A).length - 1 :=
        List.length_tail _
      have hx := stones_getD_mem _ _ _ ss T r hstQ p (by omega)
      have e2 : (path T A).tail.getD p T = (path T A).getD (p + 1) T :=
        (getD_succ_tail _ hTA p T).symm
      have e3 : (r :: ss).getD (p + 1) r = ss.getD p 0 := by
        rw [List.getD_cons_succ]
        exact getD_irrel _ _ (by omega) _ _
      rw [e2] at hx
      obtain ⟨-, hch⟩ := (mem_layer_iff_of_ne hF B _ hmBne φB P _).1 hx
      rw [hmBtail] at hch
      rw [e3]
      exact hch
  · rintro ⟨hrP, ss, hstP, hψA, hbase⟩
    have hlen : ss.length = (path T A).tail.length :=
      stones_length _ _ _ ss T r hstP
    have hlentail : (path T A).tail.length = (path T A).length - 1 :=
      List.length_tail _
    have hchains := stone_chains hF hTA hTB hia hib htake hdisj hrP hstP hbase
    have hchB : chainW rel P (fun _ s => φB s) T r (path T B).tail = true := by
      have h0 := hchains 0 (by omega)
      rwa [path_getD_zero hF T A hTA T, List.getD_cons_zero] at h0
    refine ⟨⟨hrP, hchB⟩, ?_⟩
    have hmemQ : ∀ p, p < (path T A).tail.length →
        ss.getD p 0 ∈ layer rel path B φB P ((path T A).tail.getD p T) := by
      intro p hp
      have hfull : p + 1 < (path T A).length := by omega
      have hk := hchains (p + 1) hfull
      have e2 : (path T A).tail.getD p T = (path T A).getD (p + 1) T :=
        (getD_succ_tail _ hTA p T).symm
      have e3 : (r :: ss).getD (p + 1) r = ss.getD p 0 := by
        rw [List.getD_cons_succ]
        exact getD_irrel _ _ (by omega) _ _
      have hvne : path ((path T A).getD (p + 1) T) B ≠ [] :=
        path_mem_conn hF hTA hTB (getD_mem_of_lt _ _ _ hfull)
      rw [e2, mem_layer_iff_of_ne hF B _ hvne]
      rw [e3] at hk
      refine ⟨?_, hk⟩
      have hm := stones_getD_mem _ _ _ ss T r hstP p hp
      rwa [e2] at hm
    have hstQ : Stones rel (layer rel path B φB P) T r (path T A).tail ss :=
      stones_strengthen rel P _ _ ss T r hstP hmemQ
    exact (chainW_iff_stones _ _ _ _ _ _).2 ⟨ss, hstQ, hψA⟩

/-- Swapping the roles of `A` and `B` in the median characterisation:
an `A`-chain whose median stone has a `B`-chain can be rearranged, stone
by stone, into a `B`-chain whose median stone has an `A`-chain. -/
theorem ychain_swap {rel : τ → Nat → τ → Nat → Bool}
    {path : τ → τ → List τ} (hF : IsForestPaths rel path)
    {A B T : τ} (hTA : path T A ≠ []) (hTB : path T B ≠ [])
    {i : Nat} (hia : i < (path T A).length) (hib : i < (path T B).length)
    (htake : (path T A).take (i + 1) = (path T B).take (i + 1))
    (φA φB : Nat → Bool) (P : τ → List Nat) (r : Nat) :
    (∃ ss, Stones rel P T r (path T A).tail ss ∧
      φA (ss.getLastD r) = true ∧
      chainW rel P (fun _ s => φB s) ((path T A).getD i T)
        ((r :: ss).getD i r) ((path T B).drop (i + 1)) = true) →
    (∃ tt, Stones rel P T r (path T B).tail tt ∧
      φB (tt.getLastD r) = true ∧
      chainW rel P (fun _ s => φA s) ((path T B).getD i T)
        ((r :: tt).getD i r) ((path T A).drop (i + 1)) = true) := by
  rintro ⟨ss, hst, hψA, hbase⟩
  have hlen : ss.length = (path T A).tail.length :=
    stones_length _ _ _ ss T r hst
  have hlentail : (path T A).tail.length = (path T A).length - 1 :=
    List.length_tail _
  have hmm : (path T B).getD i T = (path T A).getD i T :=
    (getD_eq_of_take_eq (path T A) (path T B) (i + 1) i T htake
      (by omega) (by omega) (by omega)).symm
  obtain ⟨tt₀, hstB, hψB⟩ := (chainW_iff_stones _ _ _ _ _ _).1 hbase
  have htt : (path T A).tail.take i = (path T B).tail.take i := by
    have h := congrArg (List.drop 1) htake
    rw [List.drop_take, List.drop_take, Nat.add_sub_cancel, List.drop_one,
      List.drop_one] at h
    exact h
  have hjt : ((path T A).tail.take i).getLastD T = (path T A).getD i T := by
    rw [getLastD_take _ T i (by omega), ← path_cons hF T A hTA]
  have hjr : (ss.take i).getLastD r = (r :: ss).getD i r :=
    getLastD_take ss r i (by omega)
  have htailB : (path T B).tail.drop i = (path T B).drop (i + 1) := by
    rw [← List.drop_one, List.drop_drop, Nat.add_comm]
  have hsplit : Stones rel P T r
      ((path T A).tail.take i ++ (path T B).drop (i + 1))
      (ss.take i ++ tt₀) := by
    apply stones_append
    · exact stones_take _ _ _ ss T r hst i
    · rw [hjt, hjr]
      exact hstB
  have hlist : (path T B).tail =
      (path T A).tail.take i ++ (path T B).drop (i + 1) := by
    rw [htt, ← htailB, List.take_append_drop]
  refine ⟨ss.take i ++ tt₀, ?_, ?_, ?_⟩
  · rw [hlist]
    exact hsplit
  · rw [getLastD_append, hjr]
    exact hψB
  · have hrow : (r :: (ss.take i ++ tt₀)).getD i r = (r :: ss).getD i r := by
      cases i with
      | zero => rfl
      | succ p =>
        rw [List.getD_cons_succ, List.getD_cons_succ,
          List.getD_append _ _ _ p (by simp [List.length_take]; omega),
          getD_take_eq ss (p + 1) p r (by omega) (by omega)]
    rw [hmm, hrow]
    have hdropst := stones_drop rel P i (path T A).tail ss T r hst (by omega)
    rw [← path_cons hF T A hTA] at hdropst
    have e2 : (path T A).tail.drop i = (path T A).drop (i + 1) := by
      rw [← List.drop_one, List.drop_drop, Nat.add_comm]
    rw [e2] at hdropst
    refine (chainW_iff_stones _ _ _ _ _ _).2 ⟨ss.drop i, hdropst, ?_⟩
    rw [getLastD_drop ss r i (by omega)]
    exact hψA

/-- Two filter layers on distinct tables commute: each cascade is
resolved against the same original forest topology, so the surviving
rows of every table do not depend on the order the two layers are
stacked in. -/
theorem layer_comm {rel : τ → Nat → τ → Nat → Bool} {path : τ → τ → List τ}
    (hF : IsForestPaths rel path) (A B : τ) (φA φB : Nat → Bool)
    (P : τ → List Nat) (T : τ) :
    layer rel path A φA (layer rel path B φB P) T =
      layer rel path B φB (layer rel path A φA P) T := by
  by_cases hTA : path T A = []
  · by_cases hTB : path T B = []
    · rw [layer_eq_pass rel path A φA (layer rel path B φB P) T hTA,
        layer_eq_pass rel path B φB P T hTB,
        layer_eq_pass rel path B φB (layer rel path A φA P) T hTB,
        layer_eq_pass rel path A φA P T hTA]
    · rw [layer_eq_pass rel path A φA _ T hTA,
        layer_eq_filter rel path B φB (layer rel path A φA P) T T
          (path T B).tail (path_cons hF T B hTB),
        layer_eq_filter rel path B φB P T T
          (path T B).tail (path_cons hF T B hTB),
        layer_eq_pass rel path A φA P T hTA]
      apply List.filter_congr
      intro x _
      apply chainW_congr
      intro u hu
      exact (layer_eq_pass rel path A φA P u
        (path_unreach hF hTB (List.mem_of_mem_tail hu) hTA)).symm
  · by_cases hTB : path T B = []
    · rw [layer_eq_pass rel path B φB _ T hTB,
        layer_eq_filter rel path A φA (layer rel path B φB P) T T
          (path T A).tail (path_cons hF T A hTA),
        layer_eq_filter rel path A φA P T T
          (path T A).tail (path_cons hF T A hTA),
        layer_eq_pass rel path B φB P T hTB]
      apply List.filter_congr
      intro x _
      apply chainW_congr
      intro u hu
      exact layer_eq_pass rel path B φB P u
        (path_unreach hF hTA (List.mem_of_mem_tail hu) hTB)
    · obtain ⟨i, hia, hib, htake, hdisj⟩ := hF.median T A B hTA hTB
      have htake' : (path T B).take (i + 1) = (path T A).take (i + 1) := htake.symm
      have hdisj' : ∀ x ∈ (path T B).drop (i + 1), x ∉ (path T A).drop (i + 1) :=
        fun x hxB hxA => hdisj x hxA hxB
      have hiff : ∀ r, r ∈ layer rel path A φA (layer rel path B φB P) T ↔
          r ∈ layer rel path B φB (layer rel path A φA P) T := by
        intro r
        rw [mem_double_layer_iff hF hTA hTB hia hib htake hdisj φA φB P r,
          mem_double_layer_iff hF hTB hTA hib hia htake' hdisj' φB φA P r]
        constructor
        · rintro ⟨hr, hy⟩
          exact ⟨hr, ychain_swap hF hTA hTB hia hib htake φA φB P r hy⟩
        · rintro ⟨hr, hy⟩
          exact ⟨hr, ychain_swap hF hTB hTA hib hia htake' φB φA P r hy⟩
      have hL : layer rel path A φA (layer rel path B φB P) T =
          (P T).filter (fun r =>
            chainW rel (layer rel path B φB P) (fun _ s => φA s) T r
                (path T A).tail &&
              chainW rel P (fun _ s => φB s) T r (path T B).tail) := by
        rw [layer_eq_filter rel path A φA _ T T (path T A).tail
            (path_cons hF T A hTA),
          layer_eq_filter rel path B φB P T T (path T B).tail
            (path_cons hF T B hTB),
          List.filter_filter]
      have hR : layer rel path B φB (layer rel path A φA P) T =
          (P T).filter (fun r =>
            chainW rel (layer rel path A φA P) (fun _ s => φB s) T r
                (path T B).tail &&
              chainW rel P (fun _ s => φA s) T r (path T A).tail) := by
        rw [layer_eq_filter rel path B φB _ T T (path T B).tail
            (path_cons hF T B hTB),
          layer_eq_filter rel path A φA P T T (path T A).tail
            (path_cons hF T A hTA),
          List.filter_filter]
      rw [hL, hR]
      apply List.filter_congr
      intro r hrP
      apply bool_eq_of_iff
      have hm1 : (chainW rel (layer rel path B φB P) (fun _ s => φA s) T r
            (path T A).tail &&
          chainW rel P (fun _ s => φB s) T r (path T B).tail) = true ↔
          r ∈ layer rel path A φA (layer rel path B φB P) T := by
        rw [hL, List.mem_filter]
        simp [hrP]
      have hm2 : (chainW rel (layer rel path A φA P) (fun _ s => φB s) T r
            (path T B).tail &&
          chainW rel P (fun _ s => φA s) T r (path T A).tail) = true ↔
          r ∈ layer rel path B φB (layer rel path A φA P) T := by
        rw [hR, List.mem_filter]
        simp [hrP]
      rw [hm1, hm2]
      exact hiff r

theorem load_feed_views_perm {rel : τ → Nat → τ → Nat → Bool}
    {path : τ → τ → List τ} (hF : IsForestPaths rel path)
    {l₁ l₂ : List (τ × (Nat → Bool))} (hperm : l₁.Perm l₂) :
    ∀ base : τ → List Nat,
      load_feed_views rel path l₁ base = load_feed_views rel path l₂ base := by
  induction hperm with
  | nil =>
    intro base
    rfl
  | cons x h ih =>
    intro base
    exact ih (layer rel path x.1 x.2 base)
  | swap x y l =>
    intro base
    show load_feed_views rel path l
        (layer rel path x.1 x.2 (layer rel path y.1 y.2 base)) =
      load_feed_views rel path l
        (layer rel path y.1 y.2 (layer rel path x.1 x.2 base))
    rw [funext (layer_comm hF x.1 y.1 x.2 y.2 base)]
  | trans h₁ h₂ ih₁ ih₂ =>
    intro base
    exact (ih₁ base).trans (ih₂ base)

/-- C7: the Feed produced by `_load_feed` (the visible row set of every
table) is identical regardless of the order the `(filename, filter)`
pairs are supplied in, because each filter's cascade is resolved against
the original forest topology rather than one distorted by a previously
applied filter. -/
theorem c7_filter_order_independent {rel : τ → Nat → τ → Nat → Bool}
    {path : τ → τ → List τ} (hF : IsForestPaths rel path)
    (conv : τ → Nat → Nat) (l₁ l₂ : List (τ × (Nat → Bool)))
    (hperm : l₁.Perm l₂) (hnodup : (l₁.map Prod.fst).Nodup)
    (base : τ → List Nat) (T : τ) :
    loadFeedTables rel path conv l₁ base T =
      loadFeedTables rel path conv l₂ base T := by
  unfold loadFeedTables convertLayer
  rw [load_feed_views_perm hF hperm base]

end ViewLemmas

/-! Concrete witness model: the three-table line forest
`0 (routes) — 1 (trips) — 2 (stop_times)`, rows matching on their last
decimal digit. -/

def relW : Fin 3 → Nat → Fin 3 → Nat → Bool :=
  fun _ r _ s => r % 10 == s % 10

def pathW : Fin 3 → Fin 3 → List (Fin 3) :=
  fun t f =>
    if t = f then [t]
    else if t = 0 ∧ f = 1 then [0, 1]
    else if t = 1 ∧ f = 0 then [1, 0]
    else if t = 1 ∧ f = 2 then [1, 2]
    else if t = 2 ∧ f = 1 then [2, 1]
    else if t = 0 ∧ f = 2 then [0, 1, 2]
    else [2, 1, 0]

theorem beq_nat_comm (a b : Nat) : (a == b) = (b == a) :=
  bool_eq_of_iff (by rw [beq_iff_eq, beq_iff_eq]; exact eq_comm)

theorem forestW : IsForestPaths relW pathW := by
  refine ⟨by decide, by decide, ?_, by decide, by decide, by decide,
    by decide, by decide⟩
  intro t r u s
  exact beq_nat_comm (r % 10) (s % 10)

def baseW : Fin 3 → List Nat :=
  fun T => if T = 0 then [1, 2] else if T = 1 then [11, 23] else [101, 113]

def convW : Fin 3 → Nat → Nat :=
  fun _ r => r + 1000

def filtersA : List (Fin 3 × (Nat → Bool)) :=
  [(0, fun r => r == 1), (2, fun _ => true)]

def filtersB : List (Fin 3 × (Nat → Bool)) :=
  [(2, fun _ => true), (0, fun r => r == 1)]

theorem c7_filter_order_independent_witness :
    loadFeedTables relW pathW convW filtersA baseW 0 =
        loadFeedTables relW pathW convW filtersB baseW 0 ∧
      loadFeedTables relW pathW convW filtersA baseW 1 =
        loadFeedTables relW pathW convW filtersB baseW 1 ∧
      loadFeedTables relW pathW convW filtersA baseW 2 =
        loadFeedTables relW pathW convW filtersB baseW 2 :=
  ⟨c7_filter_order_independent forestW convW filtersA filtersB
      (List.Perm.swap _ _ _) (by decide) baseW 0,
    c7_filter_order_independent forestW convW filtersA filtersB
      (List.Perm.swap _ _ _) (by decide) baseW 1,
    c7_filter_order_independent forestW convW filtersA filtersB
      (List.Perm.swap _ _ _) (by decide) baseW 2⟩

end Partridge
